import Mathlib

/-!
A verification development for the workpacket pipeline engine
(content chunker, keyword-query builder, content index, stage orchestrator).

The TypeScript sources are shallowly embedded as executable Lean definitions:
  * `src/stages/ingest.ts`  → chunk discovery/splitting (`chunkMarkdown`,
    `chunkPlainText`, `trimBlankLines`, `makeChunkId`, `discoverFiles`);
  * `src/query-builder.ts`  → `buildDynamicQuery`;
  * `src/storage.ts`        → `createStorage` / `retrieve` (the sqlite FTS5
    engine is abstracted as a match/rank oracle `FtsEngine`);
  * `src/orchestrator.ts`   → `runPipeline` with an explicit state carrying
    the run metadata, the written-files journal and the audit log.

External effects are made explicit: the sha256 hex digests are abstracted as
string-valued function parameters (`h12` for the 12-char chunk-id digest,
`h8` for the 8-char path digest); the filesystem walk result is an input
list; a stage's effectful `run` is a function of the attempt number.
-/

namespace Workpacket

/-! ## Data model: source refs and chunks (src/schemas/source-ref.ts, chunk.ts) -/

/-- A source locator. Field `sect` embeds the source field named `section`
(a Lean keyword). Optional fields are omitted from the serialized JSON when
absent, mirroring `JSON.stringify` dropping `undefined` properties. -/
structure SourceRef where
  file_id : String
  page : Option Nat := none
  sect : Option String := none
  line_start : Option Nat := none
  line_end : Option Nat := none
  deriving Repr, DecidableEq

/-- An addressable unit of source text with exact provenance. -/
structure Chunk where
  chunk_id : String
  file_id : String
  text : String
  source_ref : SourceRef
  deriving Repr, DecidableEq

/-! ## Content chunker (src/stages/ingest.ts) -/

/-- `makeChunkId` from ingest.ts: `chunk-` followed by the first 12 hex chars
of `sha256("${fileId}:${index}")`. The truncated digest is abstracted as the
function parameter `h12`. -/
def makeChunkId (h12 : String → String) (fileId : String) (index : Nat) : String :=
  "chunk-" ++ h12 (fileId ++ ":" ++ toString index)

/-- The digest preimage `"${fileId}:${index}"` used by `makeChunkId`. -/
def chunkIdKey (fileId : String) (index : Nat) : String :=
  fileId ++ ":" ++ toString index

/-- `String.prototype.trim`, embedded at the character-list level so that
kernel reduction can evaluate it (the built-in `String.trim` works on byte
positions and is opaque to reduction). -/
def strTrim (s : String) : String :=
  String.mk (((s.toList.dropWhile Char.isWhitespace).reverse.dropWhile
    Char.isWhitespace).reverse)

/-- `String.prototype.toLowerCase`, at the character-list level. -/
def strToLower (s : String) : String :=
  String.mk (s.toList.map Char.toLower)

/-- `String.prototype.startsWith`, at the character-list level. -/
def strStartsWith (s pre : String) : Bool :=
  pre.toList.isPrefixOf s.toList

/-- `String.prototype.endsWith`, at the character-list level. -/
def strEndsWith (s suf : String) : Bool :=
  suf.toList.isSuffixOf s.toList

/-- `content.split("\n")`, at the character-list level: every newline
occurrence separates (adjacent newlines yield empty lines, as in JS). -/
def splitLines (s : String) : List String :=
  (s.toList.splitOnP (fun c => c = '\n')).map (fun cs => String.mk cs)

/-- A line is blank when `line.trim() === ""`. -/
def isBlankLine (s : String) : Bool :=
  strTrim s == ""

/-- Result of `trimBlankLines`: offsets of the stripped leading/trailing blank
runs and the remaining lines. -/
structure TrimResult where
  startOffset : Nat
  endOffset : Nat
  trimmedLines : List String
  deriving Repr, DecidableEq

/-- `trimBlankLines` from ingest.ts: first/last non-blank line indices within
a line buffer; `none` when the buffer is all blank. `startOffset` counts the
leading blank lines, `endOffset` the trailing ones, and `trimmedLines` is the
slice between them (source: `lines.slice(start, end + 1)`). -/
def trimBlankLines (lines : List String) : Option TrimResult :=
  let start := (lines.takeWhile isBlankLine).length
  if start = lines.length then none
  else
    let endOffset := (lines.reverse.takeWhile isBlankLine).length
    some ⟨start, endOffset, (lines.drop start).take (lines.length - endOffset - start)⟩

/-- The fence-toggle test `/^(`{3,}|~{3,})/`: a line starting with three or
more backticks or tildes (matching the first three characters suffices). -/
def isFenceLine (s : String) : Bool :=
  strStartsWith s "```" || strStartsWith s "~~~"

/-- The heading test `/^#{1,6}\s/`: one to six leading `#` characters followed
by a whitespace character. (Seven or more leading `#` never match, since every
shorter hash run is still followed by `#`.) -/
def isHeadingLine (s : String) : Bool :=
  let cs := s.toList
  let hashes := (cs.takeWhile (fun c => c = '#')).length
  decide (1 ≤ hashes) && decide (hashes ≤ 6) &&
    (match cs.drop hashes with
     | c :: _ => c.isWhitespace
     | [] => false)

/-- The mutable locals of `chunkMarkdown`'s line scan. -/
structure MdState where
  chunks : List Chunk
  currentLines : List String
  currentStart : Nat
  chunkIndex : Nat
  inFencedBlock : Bool
  deriving Repr

/-- `flushChunk` inside `chunkMarkdown`: trim blank edges, convert to 1-based
inclusive line numbers, emit the chunk. A fully blank buffer emits nothing. -/
def mdFlush (h12 : String → String) (fileId : String) (st : MdState) : MdState :=
  match trimBlankLines st.currentLines with
  | none => st
  | some tr =>
    let lineStart1 := st.currentStart + tr.startOffset + 1
    let lineEnd1 := st.currentStart + st.currentLines.length - tr.endOffset
    { st with
      chunks := st.chunks ++ [{
        chunk_id := makeChunkId h12 fileId st.chunkIndex,
        file_id := fileId,
        text := String.intercalate "\n" tr.trimmedLines,
        source_ref := {
          file_id := fileId,
          line_start := some lineStart1,
          line_end := some lineEnd1 } }],
      chunkIndex := st.chunkIndex + 1 }

/-- One iteration of `chunkMarkdown`'s `for` loop over `(i, line)`: toggle the
fence state first; a heading line outside a fence with a non-empty buffer
flushes and starts a new accumulation at `i`, every other line is appended. -/
def mdStep (h12 : String → String) (fileId : String) (i : Nat) (line : String)
    (st : MdState) : MdState :=
  let fenced := if isFenceLine line then !st.inFencedBlock else st.inFencedBlock
  let st1 := { st with inFencedBlock := fenced }
  if !fenced && isHeadingLine line && !st1.currentLines.isEmpty then
    let st2 := mdFlush h12 fileId st1
    { st2 with currentLines := [line], currentStart := i }
  else
    { st1 with currentLines := st1.currentLines ++ [line] }

/-- The scan loop of `chunkMarkdown`, followed by the final
`if (currentLines.length > 0) flushChunk()`. -/
def mdGo (h12 : String → String) (fileId : String) :
    List String → Nat → MdState → List Chunk
  | [], _, st => if st.currentLines.isEmpty then st.chunks else (mdFlush h12 fileId st).chunks
  | line :: rest, i, st => mdGo h12 fileId rest (i + 1) (mdStep h12 fileId i line st)

/-- `chunkMarkdown` from ingest.ts: split on `"\n"`, scan lines keeping fenced
state, split at headings, trim blank edges of each block. -/
def chunkMarkdown (h12 : String → String) (content fileId : String) : List Chunk :=
  mdGo h12 fileId (splitLines content) 0 ⟨[], [], 0, 0, false⟩

/-- The mutable locals of `chunkPlainText`'s line scan; `currentStart = none`
embeds the source's `-1` sentinel ("not in a paragraph"). -/
structure PtState where
  chunks : List Chunk
  currentLines : List String
  currentStart : Option Nat
  chunkIndex : Nat
  deriving Repr

/-- `flushChunk` inside `chunkPlainText`: emit the accumulated non-blank lines
as a chunk (no-op on an empty buffer) and reset the paragraph state. -/
def ptFlush (h12 : String → String) (fileId : String) (st : PtState) : PtState :=
  match st.currentLines with
  | [] => st
  | _ =>
    let cs := st.currentStart.getD 0
    { chunks := st.chunks ++ [{
        chunk_id := makeChunkId h12 fileId st.chunkIndex,
        file_id := fileId,
        text := String.intercalate "\n" st.currentLines,
        source_ref := {
          file_id := fileId,
          line_start := some (cs + 1),
          line_end := some (cs + st.currentLines.length) } }],
      currentLines := [],
      currentStart := none,
      chunkIndex := st.chunkIndex + 1 }

/-- One iteration of `chunkPlainText`'s loop: between paragraphs, blank lines
are skipped and a non-blank line opens a paragraph at `i`; inside a paragraph,
a blank line flushes and a non-blank line is appended. -/
def ptStep (h12 : String → String) (fileId : String) (i : Nat) (line : String)
    (st : PtState) : PtState :=
  match st.currentStart with
  | none =>
    if isBlankLine line then st
    else { st with currentStart := some i, currentLines := st.currentLines ++ [line] }
  | some _ =>
    if isBlankLine line then ptFlush h12 fileId st
    else { st with currentLines := st.currentLines ++ [line] }

/-- The scan loop of `chunkPlainText`, followed by the final `flushChunk()`. -/
def ptGo (h12 : String → String) (fileId : String) :
    List String → Nat → PtState → List Chunk
  | [], _, st => (ptFlush h12 fileId st).chunks
  | line :: rest, i, st => ptGo h12 fileId rest (i + 1) (ptStep h12 fileId i line st)

/-- `chunkPlainText` from ingest.ts: blank-line-separated runs of non-blank
lines become chunks. -/
def chunkPlainText (h12 : String → String) (content fileId : String) : List Chunk :=
  ptGo h12 fileId (splitLines content) 0 ⟨[], [], none, 0⟩

/-- `chunkFile` from ingest.ts: empty/whitespace-only content yields no
chunks; `.md` files go through the markdown chunker, others (`.txt`) through
the paragraph chunker. The extension test embeds
`extname(filePath).toLowerCase() === ".md"`. -/
def chunkFile (h12 : String → String) (filePath fileId content : String) : List Chunk :=
  if strTrim content == "" then []
  else if strEndsWith (strToLower filePath) ".md" then chunkMarkdown h12 content fileId
  else chunkPlainText h12 content fileId

/-! ## File discovery (src/stages/ingest.ts, `discoverFiles`) -/

/-- A discovered file before disambiguation: its absolute path and the
initially assigned file id (basename for direct-file roots, root-relative
path for directory roots). The filesystem walk that produces this list is
effectful; the embedding takes the raw pre-sort list as input, in whatever
order `readdirSync` happened to yield. -/
structure FileEntry where
  filePath : String
  fileId : String
  deriving Repr, DecidableEq

/-- The duplicate-id disambiguation pass of `discoverFiles`: an entry whose
`fileId` occurs more than once in the raw list is prefixed with
`pathHash(filePath) + "/"`; `h8` abstracts the 8-hex-char path digest. -/
def disambiguate (h8 : String → String) (rs : List FileEntry) : List FileEntry :=
  rs.map fun r =>
    if 1 < rs.countP (fun x => x.fileId == r.fileId) then
      { r with fileId := h8 r.filePath ++ "/" ++ r.fileId }
    else r

/-- The `sort by filePath` comparator (`localeCompare` embeds as the total
lexicographic order on strings). -/
def pathLe (a b : FileEntry) : Bool :=
  decide (a.filePath ≤ b.filePath)

/-- `discoverFiles` from ingest.ts, after the walk: disambiguate duplicate
file ids, then sort by absolute path for deterministic cross-run ordering. -/
def discoverFiles (h8 : String → String) (raw : List FileEntry) : List FileEntry :=
  (disambiguate h8 raw).mergeSort pathLe

/-- The chunk list produced by the ingest stage: chunk every discovered file
in discovery order. `contentOf` maps an absolute path to the (unchanged) file
content. -/
def ingestChunks (h12 h8 : String → String) (contentOf : String → String)
    (raw : List FileEntry) : List Chunk :=
  (discoverFiles h8 raw).flatMap fun e => chunkFile h12 e.filePath e.fileId (contentOf e.filePath)

/-! ## Query builder (src/query-builder.ts) -/

/-- The fixed stop-word set `STOP_WORDS`. -/
def STOP_WORDS : List String := [
  "a", "an", "the", "and", "or", "but", "in", "on", "at", "to", "for",
  "of", "with", "by", "from", "as", "is", "was", "are", "were", "be",
  "been", "being", "have", "has", "had", "do", "does", "did", "will",
  "would", "could", "should", "may", "might", "shall", "can", "need",
  "must", "it", "its", "this", "that", "these", "those", "i", "you",
  "he", "she", "we", "they", "me", "him", "her", "us", "them", "my",
  "your", "his", "our", "their", "what", "which", "who", "whom",
  "not", "no", "nor", "if", "then", "else", "when", "where", "how",
  "all", "each", "every", "both", "few", "more", "most", "other",
  "some", "such", "only", "own", "same", "so", "than", "too", "very",
  "just", "about", "above", "after", "before", "between", "into",
  "through", "during", "out", "up", "down", "over", "under", "also"]

def MIN_TERM_LENGTH : Nat := 3

def MAX_TERMS : Nat := 40

/-- A character kept by the token split `/[^a-z0-9]+/` (applied after
lower-casing): a lowercase ASCII letter or digit. -/
def isQueryChar (c : Char) : Bool :=
  (decide ('a' ≤ c) && decide (c ≤ 'z')) || (decide ('0' ≤ c) && decide (c ≤ '9'))

/-- `text.toLowerCase().split(/[^a-z0-9]+/)`: lower-case, then split on
non-alphanumeric characters. Splitting on each separator character instead of
on maximal separator runs only introduces extra empty tokens, which the
`MIN_TERM_LENGTH` filter discards identically. -/
def tokenizeQueryText (s : String) : List String :=
  ((strToLower s).toList.splitOnP (fun c => !isQueryChar c)).map (fun cs => String.mk cs)

/-- The inner word loop of `buildDynamicQuery`: keep a token iff it is at
least `MIN_TERM_LENGTH` long, not a stop word, and not already seen (the
source's `seen` set holds exactly the collected terms). -/
def addTerms (terms : List String) (text : String) : List String :=
  (tokenizeQueryText text).foldl
    (fun acc w =>
      if decide (MIN_TERM_LENGTH ≤ w.length) && !(STOP_WORDS.contains w) && !(acc.contains w)
      then acc ++ [w] else acc)
    terms

/-- The deduplicated significant terms of the input texts, in first-seen
order (the `terms` array right before the final slice/join). -/
def dynamicTerms (texts : List String) : List String :=
  texts.foldl addTerms []

/-- `buildDynamicQuery` from query-builder.ts: significant terms, capped at
`MAX_TERMS`, joined with `" OR "`. -/
def buildDynamicQuery (texts : List String) : String :=
  String.intercalate " OR " ((dynamicTerms texts).take MAX_TERMS)

/-! ## Content index (src/storage.ts)

The sqlite database is embedded as an explicit value: the `files` table (an
association list with `INSERT OR IGNORE` semantics, first insert wins) and
the `chunks` table as a list of rows in insertion (rowid) order, each row
storing the `JSON.stringify`-ed source ref. The FTS5 full-text engine is
external to the repository and is abstracted as a match/rank oracle. -/

/-- A JSON value, as far as source-ref serialization needs one. -/
inductive Json where
  | str (s : String)
  | num (n : Nat)
  | obj (fields : List (String × Json))
  deriving Repr

/-- `JSON.stringify(chunk.source_ref)`, at the AST level: the present fields
in declaration order; `undefined` (absent) optional fields are omitted. -/
def encodeSourceRef (r : SourceRef) : Json :=
  .obj ([("file_id", Json.str r.file_id)]
    ++ (match r.page with | some p => [("page", Json.num p)] | none => [])
    ++ (match r.sect with | some s => [("section", Json.str s)] | none => [])
    ++ (match r.line_start with | some n => [("line_start", Json.num n)] | none => [])
    ++ (match r.line_end with | some n => [("line_end", Json.num n)] | none => []))

/-- First binding of a key in a JSON object. -/
def jsonLookup (fields : List (String × Json)) (k : String) : Option Json :=
  (fields.find? (fun kv => kv.1 == k)).map (fun kv => kv.2)

/-- `JSON.parse(row.source_ref)` as seen by consumers of the retrieved chunk:
read each source-ref field back out of the parsed object. -/
def decodeSourceRef : Json → SourceRef
  | .obj fs =>
    { file_id := match jsonLookup fs "file_id" with | some (.str s) => s | _ => "",
      page := match jsonLookup fs "page" with | some (.num n) => some n | _ => none,
      sect := match jsonLookup fs "section" with | some (.str s) => some s | _ => none,
      line_start := match jsonLookup fs "line_start" with | some (.num n) => some n | _ => none,
      line_end := match jsonLookup fs "line_end" with | some (.num n) => some n | _ => none }
  | _ => { file_id := "" }

/-- One row of the `chunks` table. -/
structure StoredRow where
  chunk_id : String
  file_id : String
  text : String
  source_ref : Json
  deriving Repr

/-- The database state written by `createStorage`. -/
structure StorageModel where
  files : List (String × String)
  rows : List StoredRow
  deriving Repr

/-- `INSERT OR IGNORE INTO files`: keep the first tag inserted for a file id. -/
def insertOrIgnore (files : List (String × String)) (kv : String × String) :
    List (String × String) :=
  if files.any (fun f => f.1 == kv.1) then files else files ++ [kv]

/-- `createStorage` from storage.ts: populate the `files` and `chunks` tables
(the FTS index mirrors the `text` column of `chunks` and needs no separate
state). `fileTags` is the iteration order of the file→tag map. -/
def createStorage (fileTags : List (String × String)) (chunks : List Chunk) :
    StorageModel :=
  { files := fileTags.foldl insertOrIgnore [],
    rows := chunks.map fun c =>
      { chunk_id := c.chunk_id, file_id := c.file_id, text := c.text,
        source_ref := encodeSourceRef c.source_ref } }

/-- Tag of a file id via the `files` table. -/
def tagOf (s : StorageModel) (fileId : String) : Option String :=
  (s.files.find? (fun f => f.1 == fileId)).map (fun f => f.2)

/-- The external FTS5 engine, abstracted: whether a row's text matches a
query, and its bm25 rank (lower is more relevant). Ranks are modelled as
integers; only their order matters to the embedded code. -/
structure FtsEngine where
  ftsMatch : String → String → Bool
  ftsRank : String → String → Int

def DEFAULT_LIMIT : Nat := 20

/-- `BIAS_BOOST = 10.0`, subtracted from the rank of tag-matching rows. -/
def BIAS_BOOST : Int := 10

/-- A retrieved row decoded back into a chunk (`JSON.parse` of the stored
source ref). -/
def rowToChunk (row : StoredRow) : Chunk :=
  { chunk_id := row.chunk_id, file_id := row.file_id, text := row.text,
    source_ref := decodeSourceRef row.source_ref }

/-- `retrieve` from storage.ts: empty/whitespace-only queries short-circuit
to `[]`; otherwise matching rows are ordered by (bias-adjusted) rank and
capped at `limit` (default 20). With a bias the SQL inner-joins `files`, so
rows whose file id has no `files` entry drop out of that branch. -/
def retrieve (eng : FtsEngine) (s : StorageModel) (query : String)
    (limit : Option Nat) (bias : Option String) : List Chunk :=
  let lim := limit.getD DEFAULT_LIMIT
  if strTrim query == "" then []
  else
    match bias with
    | some tag =>
      let scored := s.rows.filterMap fun row =>
        match tagOf s row.file_id with
        | some t =>
          if eng.ftsMatch row.text query then
            some (row, eng.ftsRank row.text query - (if t == tag then BIAS_BOOST else 0))
          else none
        | none => none
      (((scored.mergeSort (fun a b => decide (a.2 ≤ b.2))).take lim).map
        (fun rc => rowToChunk rc.1))
    | none =>
      let scored := (s.rows.filter (fun row => eng.ftsMatch row.text query)).map
        (fun row => (row, eng.ftsRank row.text query))
      (((scored.mergeSort (fun a b => decide (a.2 ≤ b.2))).take lim).map
        (fun rc => rowToChunk rc.1))

/-- Modelled from the spec: the storage reader's tag-only lookup
`retrieveByTag(tag, limit?)`. Its implementation is missing from the provided
sources — only its callers (`extract-requirements.ts`, `map-concepts.ts`, the
`explain_concepts` stage) and its tests appear — so it is modelled from the
spec: "returns up to `limit` chunks whose file carries `tag`, bypassing
keyword scoring", with the reader's default cap when `limit` is omitted. -/
def retrieveByTag (s : StorageModel) (tag : String) (limit : Option Nat) :
    List Chunk :=
  ((s.rows.filter fun row => tagOf s row.file_id == some tag).take
    (limit.getD DEFAULT_LIMIT)).map rowToChunk

/-- A sample source ref carrying every optional field, for concrete checks. -/
def sampleRef : SourceRef :=
  { file_id := "spec.md", page := some 2, sect := some "Intro",
    line_start := some 3, line_end := some 5 }

/-- A sample chunk, for concrete checks. -/
def sampleChunk : Chunk :=
  { chunk_id := "c1", file_id := "spec.md", text := "hello world",
    source_ref := sampleRef }

/-- A second sample chunk with only a line locator. -/
def sampleChunk2 : Chunk :=
  { chunk_id := "c2", file_id := "notes.md", text := "req one",
    source_ref := { file_id := "notes.md", line_start := some 1, line_end := some 1 } }

/-- The stored row of `sampleChunk`, for concrete checks. -/
def sampleRow : StoredRow :=
  { chunk_id := "c1", file_id := "spec.md", text := "hello world",
    source_ref := encodeSourceRef sampleRef }

/-- The stored row of `sampleChunk2`, for concrete checks. -/
def sampleRow2 : StoredRow :=
  { chunk_id := "c2", file_id := "notes.md", text := "req one",
    source_ref := encodeSourceRef sampleChunk2.source_ref }

/-- An FTS oracle that matches everything with constant rank, for witnesses. -/
def trivialEngine : FtsEngine :=
  { ftsMatch := fun _ _ => true, ftsRank := fun _ _ => 0 }

/-! ## Stage orchestrator (src/orchestrator.ts)

Runtime values flowing between stages (`unknown` in the source) are embedded
as `Value`; a stage's effectful `run` is a function of the attempt number so
that consecutive retries may observe different results; a Zod `safeParse` is
an `Except` whose error is already the joined issue summary the orchestrator
would build from the issue list. File writes are a journal of
`(filename, data)` pairs in write order; the audit log is a list of entries
mirroring the `logger.log` call sites. -/

/-- A runtime value: a string, `undefined`, or an opaque structured value. -/
inductive Value where
  | vstr (s : String)
  | vnone
  | vother (n : Nat)
  deriving Repr, DecidableEq

/-- `typeof` of a value, for the non-string-artifact error message. -/
def typeofValue : Value → String
  | .vstr _ => "string"
  | .vnone => "undefined"
  | .vother _ => "object"

/-- Result of one invocation of a stage's `run`: it raised, or returned a
candidate value. -/
inductive StageRunResult where
  | threw (msg : String)
  | returned (v : Value)
  deriving Repr, DecidableEq

/-- `PipelineStage` from orchestrator.ts. `run input attempt` is the result
of the attempt-th invocation (attempts count from 1) on `input`;
`outputSchema` is `safeParse`, returning the normalized value or the joined
validation-issue summary. -/
structure PipelineStage where
  name : String
  run : Value → Nat → StageRunResult
  outputSchema : Value → Except String Value
  outputFilename : String

def MAX_RETRIES : Nat := 2

inductive RunStatus where
  | running
  | completed
  | failed
  deriving Repr, DecidableEq

/-- `RunMetadata` (src/schemas/run-metadata.ts). -/
structure RunMetadata where
  run_id : String
  assignment_id : String
  started_at : String
  completed_at : Option String
  stages_completed : List String
  status : RunStatus
  error : Option String
  deriving Repr, DecidableEq

/-- One audit-log line, one constructor per `logger.log` call site of
orchestrator.ts. -/
inductive LogEntry where
  | pipelineStarted (assignmentId : String) (numStages : Nat)
  | stageStarted (name : String)
  | stageThrew (name : String) (msg : String)
  | validationFailedFinal (name : String) (attempts : Nat)
  | retrying (name : String) (attempt : Nat)
  | wrongOutputTypeLogged (msg : String)
  | stageCompleted (name : String) (filename : String)
  | pipelineCompleted
  deriving Repr, DecidableEq

/-- Data written to a file: the serialized run metadata, a JSON artifact
(`JSON.stringify(validatedOutput)`, kept at the value level), or a literal
text artifact. -/
inductive FileData where
  | metaFile (m : RunMetadata)
  | jsonArtifact (v : Value)
  | textArtifact (s : String)
  deriving Repr, DecidableEq

/-- The orchestrator's observable state: the in-memory metadata record, the
journal of file writes under the output directory in order, and the audit
log (the run.log contents). -/
structure OrchState where
  meta : RunMetadata
  journal : List (String × FileData)
  log : List LogEntry
  deriving Repr

/-- `writeRunMetadata`: rewrite `run.json` with the current metadata. -/
def writeRunMetadata (st : OrchState) : OrchState :=
  { st with journal := st.journal ++ [("run.json", FileData.metaFile st.meta)] }

/-- `logger.log`: append one audit-log entry. -/
def logEntry (e : LogEntry) (st : OrchState) : OrchState :=
  { st with log := st.log ++ [e] }

/-- Result of the per-stage `while (true)` attempt loop: the run failed (the
function returned early), or validation succeeded with a validated value. -/
inductive LoopResult where
  | fatal (st : OrchState)
  | success (v : Value) (st : OrchState)

/-- The `while (true)` attempt loop of `runPipeline` for one stage, entered
at the given attempt number (1 on entry). A raised error fails the run
immediately; a candidate failing validation retries until
`attempts > MAX_RETRIES`, logging each retry; a valid candidate exits with
the normalized value. -/
def stageLoop (stage : PipelineStage) (input : Value) (attempt : Nat)
    (st : OrchState) : LoopResult :=
  match stage.run input attempt with
  | .threw msg =>
    let st1 := logEntry (.stageThrew stage.name msg) st
    let st2 := { st1 with meta := { st1.meta with status := .failed, error := some msg } }
    .fatal (writeRunMetadata st2)
  | .returned out =>
    match stage.outputSchema out with
    | .ok v => .success v st
    | .error summary =>
      if h : MAX_RETRIES < attempt then
        let st1 := logEntry (.validationFailedFinal stage.name attempt) st
        let st2 := { st1 with meta := { st1.meta with status := .failed, error := some summary } }
        .fatal (writeRunMetadata st2)
      else
        stageLoop stage input (attempt + 1) (logEntry (.retrying stage.name attempt) st)
termination_by MAX_RETRIES + 1 - attempt
decreasing_by simp only [MAX_RETRIES] at *; omega

/-- The `for (const stage of stages)` loop of `runPipeline`, plus the
completion epilogue. After a successful validation the artifact is written
(serialized for `.json` filenames, literal text otherwise — any non-string
value for a text artifact fails the run), the stage name is appended to
`stages_completed`, the metadata is rewritten, and the validated value feeds
the next stage. -/
def runStages (completedAt : String) :
    List PipelineStage → Value → OrchState → OrchState
  | [], _, st =>
    let st1 := { st with meta :=
      { st.meta with status := .completed, completed_at := some completedAt } }
    logEntry .pipelineCompleted (writeRunMetadata st1)
  | stage :: rest, input, st =>
    let st1 := logEntry (.stageStarted stage.name) st
    match stageLoop stage input 1 st1 with
    | .fatal st2 => st2
    | .success v st2 =>
      if strEndsWith stage.outputFilename ".json" then
        let st3 := { st2 with journal :=
          st2.journal ++ [(stage.outputFilename, FileData.jsonArtifact v)] }
        let st4 := logEntry (.stageCompleted stage.name stage.outputFilename) st3
        let st5 := { st4 with meta := { st4.meta with
          stages_completed := st4.meta.stages_completed ++ [stage.name] } }
        runStages completedAt rest v (writeRunMetadata st5)
      else
        match v with
        | .vstr sOut =>
          let st3 := { st2 with journal :=
            st2.journal ++ [(stage.outputFilename, FileData.textArtifact sOut)] }
          let st4 := logEntry (.stageCompleted stage.name stage.outputFilename) st3
          let st5 := { st4 with meta := { st4.meta with
            stages_completed := st4.meta.stages_completed ++ [stage.name] } }
          runStages completedAt rest v (writeRunMetadata st5)
        | v' =>
          let msg := "Stage '" ++ stage.name ++
            "' output must be a string for non-JSON filename '" ++
            stage.outputFilename ++ "', got " ++ typeofValue v'
          let st3 := logEntry (.wrongOutputTypeLogged msg) st2
          let st4 := { st3 with meta :=
            { st3.meta with status := .failed, error := some msg } }
          writeRunMetadata st4

/-- `runPipeline` from orchestrator.ts. `run_id` (`randomUUID`), `startedAt`
and `completedAt` (`new Date().toISOString()`) are inputs of the embedding;
the returned metadata is `(runPipeline ...).meta`. -/
def runPipeline (run_id startedAt completedAt assignment_id : String)
    (stages : List PipelineStage) (initialInput : Value) : OrchState :=
  let meta : RunMetadata :=
    { run_id := run_id, assignment_id := assignment_id, started_at := startedAt,
      completed_at := none, stages_completed := [], status := .running,
      error := none }
  let st0 : OrchState := { meta := meta, journal := [], log := [] }
  let st1 := writeRunMetadata st0
  let st2 := logEntry (.pipelineStarted assignment_id stages.length) st1
  runStages completedAt stages initialInput st2

/-! ## Property definitions used by the theorems -/

/-- The term accumulator invariant of the query builder: no duplicates, and
every collected term is long enough and not a stop word. -/
def TermsInv (l : List String) : Prop :=
  l.Nodup ∧ ∀ w ∈ l, MIN_TERM_LENGTH ≤ w.length ∧ w ∉ STOP_WORDS

/-- The text-locator invariant for one chunk against the owning file's lines:
the chunk names a 1-based inclusive line range, and joining the half-open
slice `[line_start - 1, line_end)` of the lines with a newline yields exactly
the chunk's text. -/
def LocatorOk (lines : List String) (c : Chunk) : Prop :=
  ∃ ls le, c.source_ref.line_start = some ls ∧ c.source_ref.line_end = some le ∧
    1 ≤ ls ∧
    String.intercalate "\n" ((lines.drop (ls - 1)).take (le - (ls - 1))) = c.text

/-- The induction invariant of the markdown scan at position `i`: the
accumulation buffer is exactly the slice of the file's lines starting at
`currentStart`, it extends up to (excluding) `i`, and all chunks emitted so
far satisfy the locator invariant. -/
def MdInv (lines : List String) (i : Nat) (st : MdState) : Prop :=
  st.currentLines = (lines.drop st.currentStart).take st.currentLines.length ∧
  st.currentStart + st.currentLines.length = i ∧
  ∀ c ∈ st.chunks, LocatorOk lines c

/-- The induction invariant of the plain-text scan at position `i`: between
paragraphs the buffer is empty; inside a paragraph it is the non-empty slice
of the file's lines starting at the paragraph start and extending up to
(excluding) `i`. -/
def PtInv (lines : List String) (i : Nat) (st : PtState) : Prop :=
  (match st.currentStart with
   | none => st.currentLines = []
   | some cs =>
     st.currentLines = (lines.drop cs).take st.currentLines.length ∧
     cs + st.currentLines.length = i ∧ st.currentLines ≠ []) ∧
  ∀ c ∈ st.chunks, LocatorOk lines c

/-- The plain-text chunk of `"\nalpha\nbeta\n"` under the identity digest,
for concrete checks. -/
def samplePtChunk : Chunk :=
  { chunk_id := "chunk-f:0", file_id := "f", text := "alpha\nbeta",
    source_ref := { file_id := "f", line_start := some 2, line_end := some 3 } }

/-- The run-metadata values successively written to `run.json`, in order. -/
def metaWrites (journal : List (String × FileData)) : List RunMetadata :=
  journal.filterMap fun w =>
    match w.2 with
    | FileData.metaFile m => if w.1 == "run.json" then some m else none
    | _ => none

/-- The allowed evolution between consecutive persisted metadata states: the
earlier write is still `running` (terminal states are never overwritten) and
its `stages_completed` list is a prefix of the later one (append-only). -/
def MetaStep (m m' : RunMetadata) : Prop :=
  m.status = RunStatus.running ∧ m.stages_completed <+: m'.stages_completed

/-- The number of retry entries logged for a stage name. -/
def countRetries (log : List LogEntry) (name : String) : Nat :=
  log.countP fun e =>
    match e with
    | LogEntry.retrying n _ => n == name
    | _ => false

/-- Last-write-wins view of the journal: the current content of a file. -/
def fileContent (journal : List (String × FileData)) (name : String) :
    Option FileData :=
  (journal.reverse.find? (fun w => w.1 == name)).map (fun w => w.2)

/-- Invariant of a healthy mid-run orchestrator state: at least one metadata
write has happened, the last one equals the in-memory record, the write
sequence obeys `MetaStep`, and the run is still `running`. -/
def MetaInv (st : OrchState) : Prop :=
  metaWrites st.journal ≠ [] ∧
  (metaWrites st.journal).getLast? = some st.meta ∧
  List.Chain' MetaStep (metaWrites st.journal) ∧
  st.meta.status = RunStatus.running

/-- Numeric value of a decimal digit character (used to show the decimal
digit string of a `Nat` determines it). -/
def digitVal (c : Char) : Nat := c.toNat - 48

/-- Decode a decimal digit string back to the number. -/
def decodeDigits (l : List Char) : Nat :=
  l.foldl (fun acc c => acc * 10 + digitVal c) 0

/-- The chunk-id discipline of one file's chunk list: the ids are exactly
`makeChunkId fileId 0, 1, ...` in order, and every chunk carries the file's
id. -/
def IdShape (h12 : String → String) (fileId : String) (cs : List Chunk) : Prop :=
  (∃ k, cs.map (fun c => c.chunk_id) = (List.range k).map (makeChunkId h12 fileId)) ∧
  ∀ c ∈ cs, c.file_id = fileId

/-! ## Helper lemmas -/

/-- A predicate preserved by every step of a `foldl` holds of its result. -/
theorem foldl_preserves {α β : Type} (P : α → Prop) (f : α → β → α)
    (hf : ∀ a b, P a → P (f a b)) :
    ∀ (l : List β) (a : α), P a → P (l.foldl f a) := by
  intro l
  induction l with
  | nil => intro a ha; exact ha
  | cons b t ih => intro a ha; exact ih _ (hf a b ha)

theorem termsInv_addTerms (terms : List String) (text : String)
    (h : TermsInv terms) : TermsInv (addTerms terms text) := by
  unfold addTerms
  apply foldl_preserves TermsInv _ _ _ _ h
  intro acc w hacc
  obtain ⟨hnd, hall⟩ := hacc
  by_cases hcond : (decide (MIN_TERM_LENGTH ≤ w.length) && !(STOP_WORDS.contains w)
      && !(acc.contains w)) = true
  · rw [if_pos hcond]
    simp only [Bool.and_eq_true, Bool.not_eq_true', decide_eq_true_eq] at hcond
    obtain ⟨⟨hlen, hstop⟩, hseen⟩ := hcond
    have hwacc : w ∉ acc := fun hmem => by
      simp [List.contains] at hseen; exact absurd hmem hseen
    have hwstop : w ∉ STOP_WORDS := fun hmem => by
      simp [List.contains] at hstop; exact absurd hmem hstop
    refine ⟨?_, ?_⟩
    · simp [List.nodup_append, hnd, hwacc]
    · intro x hx
      rcases List.mem_append.mp hx with hx | hx
      · exact hall x hx
      · simp only [List.mem_singleton] at hx
        subst hx
        exact ⟨hlen, hwstop⟩
  · rw [if_neg hcond]
    exact ⟨hnd, hall⟩

theorem termsInv_dynamicTerms (texts : List String) : TermsInv (dynamicTerms texts) :=
  foldl_preserves TermsInv addTerms
    (fun a b ha => termsInv_addTerms a b ha) texts [] ⟨List.nodup_nil, by simp⟩

/-! ## C6: query builder -/

/-- C6: `buildDynamicQuery` lower-cases, splits on non-alphanumeric
boundaries, drops short and stop-word tokens, deduplicates preserving
first-seen order, caps at 40 terms and joins with `" OR "`; it is a pure
function, returns `""` on empty and on all-stopword input, and on
`"the quick and lazy fox is very fast"` it returns
`"quick OR lazy OR fox OR fast"` (excluding "the", "and", "is", "very"). -/
theorem buildDynamicQuery_spec :
    buildDynamicQuery ["the quick and lazy fox is very fast"] = "quick OR lazy OR fox OR fast" ∧
    buildDynamicQuery [] = "" ∧
    buildDynamicQuery ["the and is very"] = "" ∧
    (∀ texts, (dynamicTerms texts).Nodup) ∧
    (∀ texts w, w ∈ dynamicTerms texts → MIN_TERM_LENGTH ≤ w.length ∧ w ∉ STOP_WORDS) ∧
    (∀ texts, ((dynamicTerms texts).take MAX_TERMS).length ≤ MAX_TERMS) := by
  refine ⟨by decide, by decide, by decide, ?_, ?_, ?_⟩
  · exact fun texts => (termsInv_dynamicTerms texts).1
  · exact fun texts w hw => (termsInv_dynamicTerms texts).2 w hw
  · intro texts
    exact List.length_take_le MAX_TERMS (dynamicTerms texts)

/-- Witness for C6 at a concrete input: "quick" is a surviving term of the
example query, justified through the general conjuncts. -/
theorem buildDynamicQuery_spec_witness :
    MIN_TERM_LENGTH ≤ "quick".length ∧ "quick" ∉ STOP_WORDS :=
  buildDynamicQuery_spec.2.2.2.2.1 ["the quick and lazy fox is very fast"] "quick"
    (by decide)

/-! ## C8: empty-query retrieval -/

/-- C8: for every built index and all limit/bias arguments, `retrieve` on an
empty or whitespace-only query (one whose `trim` is empty) returns `[]` —
never an error, never the whole chunk set. -/
theorem retrieve_empty_query (eng : FtsEngine) (s : StorageModel)
    (limit : Option Nat) (bias : Option String) (q : String)
    (hq : strTrim q = "") : retrieve eng s q limit bias = [] := by
  unfold retrieve
  simp [hq]

/-- Witness for C8: a whitespace-only query against a one-chunk index. -/
theorem retrieve_empty_query_witness :
    strTrim "  " = "" ∧
    retrieve trivialEngine (createStorage [("spec.md", "spec")] [sampleChunk])
      "  " none none = [] :=
  ⟨by decide, retrieve_empty_query _ _ _ _ _ (by decide)⟩

/-! ## C10: storage round trip -/

theorem decodeSourceRef_encodeSourceRef (r : SourceRef) :
    decodeSourceRef (encodeSourceRef r) = r := by
  rcases r with ⟨f, p, s, ls, le⟩
  rcases p <;> rcases s <;> rcases ls <;> rcases le <;> rfl

/-- Any chunk returned by `retrieve` decodes from some stored row. -/
theorem retrieve_mem_rows (eng : FtsEngine) (s : StorageModel) (q : String)
    (limit : Option Nat) (bias : Option String) (c : Chunk)
    (hc : c ∈ retrieve eng s q limit bias) :
    ∃ row ∈ s.rows, c = rowToChunk row := by
  unfold retrieve at hc
  by_cases hq : (strTrim q == "") = true
  · simp [hq] at hc
  · simp only [Bool.not_eq_true] at hq
    simp only [hq, Bool.false_eq_true, if_neg, not_false_iff] at hc
    rcases bias with _ | tag
    · simp only at hc
      rcases List.mem_map.mp hc with ⟨rc, hrc, heq⟩
      have hrc2 := List.mem_of_mem_take hrc
      have hrc3 := (List.mergeSort_perm _ _).mem_iff.mp hrc2
      rcases List.mem_map.mp hrc3 with ⟨row, hrow, hrc4⟩
      refine ⟨row, List.mem_of_mem_filter hrow, ?_⟩
      rw [← heq, ← hrc4]
    · simp only at hc
      rcases List.mem_map.mp hc with ⟨rc, hrc, heq⟩
      have hrc2 := List.mem_of_mem_take hrc
      have hrc3 := (List.mergeSort_perm _ _).mem_iff.mp hrc2
      rcases List.mem_filterMap.mp hrc3 with ⟨row, hrow, hsome⟩
      refine ⟨row, hrow, ?_⟩
      rcases htag : tagOf s row.file_id with _ | t
      · rw [htag] at hsome; simp at hsome
      · rw [htag] at hsome
        by_cases hm : eng.ftsMatch row.text q = true
        · simp only [hm, if_pos, Option.some.injEq] at hsome
          rw [← heq, ← hsome]
        · simp [hm] at hsome

/-- C10: storing chunks does not alter them — every chunk returned by
`retrieve` over `createStorage fileTags chunks` is one of the ingested
chunks, with `chunk_id`, `file_id`, `text` equal to the original's and
`source_ref` structurally equal to the original (the serialize/deserialize
round trip `decodeSourceRef ∘ encodeSourceRef` is the identity, optional
fields included). -/
theorem createStorage_retrieve_roundtrip (fileTags : List (String × String))
    (chunks : List Chunk) (eng : FtsEngine) (q : String) (limit : Option Nat)
    (bias : Option String) (c : Chunk)
    (hc : c ∈ retrieve eng (createStorage fileTags chunks) q limit bias) :
    (∃ c0 ∈ chunks, c.chunk_id = c0.chunk_id ∧ c.file_id = c0.file_id ∧
      c.text = c0.text ∧ c.source_ref = c0.source_ref) ∧
    (∀ r : SourceRef, decodeSourceRef (encodeSourceRef r) = r) := by
  refine ⟨?_, decodeSourceRef_encodeSourceRef⟩
  rcases retrieve_mem_rows _ _ _ _ _ _ hc with ⟨row, hrow, hdec⟩
  simp only [createStorage] at hrow
  rcases List.mem_map.mp hrow with ⟨c0, hc0, hrow2⟩
  refine ⟨c0, hc0, ?_⟩
  subst hdec
  rw [← hrow2]
  simp [rowToChunk, decodeSourceRef_encodeSourceRef]

/-- Witness for C10: a concrete index with one chunk (carrying every optional
source-ref field) retrieved by a concrete query. -/
theorem createStorage_retrieve_roundtrip_witness :
    ∃ c0 ∈ [sampleChunk], (rowToChunk sampleRow).chunk_id = c0.chunk_id := by
  have h := createStorage_retrieve_roundtrip [("spec.md", "spec")] [sampleChunk]
    trivialEngine "hello" none none (rowToChunk sampleRow)
    (by simp [retrieve, createStorage, trivialEngine, sampleChunk, sampleRow, strTrim, DEFAULT_LIMIT])
  rcases h.1 with ⟨c0, hc0, h1, _⟩
  exact ⟨c0, hc0, h1⟩

/-! ## C7: tag-only lookup (spec-modelled) -/

/-- C7: the content index exposes a tag-only lookup `retrieveByTag(tag,
limit?)` returning up to `limit` chunks whose owning file carries `tag`
(default cap 20 when `limit` is omitted), bypassing keyword relevance
scoring entirely (the operation consults no FTS engine); every returned
chunk is one of the ingested chunks, unaltered. Modelled from the spec —
the implementation is absent from the provided sources. -/
theorem retrieveByTag_spec (fileTags : List (String × String))
    (chunks : List Chunk) (tag : String) (limit : Option Nat) :
    (retrieveByTag (createStorage fileTags chunks) tag limit).length ≤
      limit.getD DEFAULT_LIMIT ∧
    ∀ c ∈ retrieveByTag (createStorage fileTags chunks) tag limit,
      tagOf (createStorage fileTags chunks) c.file_id = some tag ∧
      ∃ c0 ∈ chunks, c.chunk_id = c0.chunk_id ∧ c.file_id = c0.file_id ∧
        c.text = c0.text ∧ c.source_ref = c0.source_ref := by
  constructor
  · unfold retrieveByTag
    rw [List.length_map]
    exact List.length_take_le _ _
  · intro c hc
    unfold retrieveByTag at hc
    rcases List.mem_map.mp hc with ⟨row, hrow, hdec⟩
    have hrow2 := List.mem_of_mem_take hrow
    have hcond := List.of_mem_filter hrow2
    have hrow3 := List.mem_of_mem_filter hrow2
    constructor
    · have : tagOf (createStorage fileTags chunks) row.file_id = some tag := by
        simpa using hcond
      rw [← hdec]
      simpa [rowToChunk] using this
    · simp only [createStorage] at hrow3
      rcases List.mem_map.mp hrow3 with ⟨c0, hc0, hrow4⟩
      refine ⟨c0, hc0, ?_⟩
      rw [← hdec, ← hrow4]
      simp [rowToChunk, decodeSourceRef_encodeSourceRef]

/-- Witness for C7: a two-file index where only the notes-tagged file's chunk
is returned by the tag lookup. -/
theorem retrieveByTag_spec_witness :
    tagOf (createStorage [("spec.md", "spec"), ("notes.md", "notes")] [sampleChunk2])
      (rowToChunk sampleRow2).file_id = some "notes" := by
  have h := (retrieveByTag_spec [("spec.md", "spec"), ("notes.md", "notes")]
    [sampleChunk2] "notes" none).2 (rowToChunk sampleRow2) (by decide)
  exact h.1

/-! ## C5: fence awareness of the markdown chunker -/

/-- The line split of the fence-awareness example input. -/
theorem exampleSplit :
    splitLines "# Before\nText\n```\n# Inside fence\n```\n# After\nMore text" =
      ["# Before", "Text", "```", "# Inside fence", "```", "# After", "More text"] := by
  decide

/-- C5: a heading marker on a line inside a fenced code block never starts a
new chunk (the scan step just appends the line), while a heading line outside
any fence (and itself no fence toggle) with a non-empty buffer does start a
new chunk at that line; in particular the 7-line example yields exactly the
two chunks whose first contains both `# Before` and `# Inside fence`. -/
theorem fence_heading_behavior :
    (∀ (h12 : String → String) (fileId : String) (i : Nat) (line : String)
       (st : MdState),
       (if isFenceLine line then !st.inFencedBlock else st.inFencedBlock) = true →
       (mdStep h12 fileId i line st).chunks = st.chunks ∧
       (mdStep h12 fileId i line st).currentLines = st.currentLines ++ [line]) ∧
    (∀ (h12 : String → String) (fileId : String) (i : Nat) (line : String)
       (st : MdState),
       st.inFencedBlock = false → isFenceLine line = false →
       isHeadingLine line = true → st.currentLines ≠ [] →
       (mdStep h12 fileId i line st).currentLines = [line] ∧
       (mdStep h12 fileId i line st).currentStart = i) ∧
    (∀ h12 : String → String,
       (chunkMarkdown h12 "# Before\nText\n```\n# Inside fence\n```\n# After\nMore text" "f").map
           (fun c => c.text) =
         ["# Before\nText\n```\n# Inside fence\n```", "# After\nMore text"]) := by
  refine ⟨?_, ?_, ?_⟩
  · intro h12 fileId i line st hfence
    unfold mdStep
    simp only [hfence, Bool.not_true, Bool.false_and]
    exact ⟨rfl, rfl⟩
  · intro h12 fileId i line st hst hfl hhl hne
    have hne2 : st.currentLines.isEmpty = false := by
      cases hcl : st.currentLines with
      | nil => exact absurd hcl hne
      | cons a t => rfl
    unfold mdStep
    simp [hfl, hst, hhl, hne2]
  · intro h12
    rw [chunkMarkdown, exampleSplit]
    rfl

/-- Witness for C5: concrete instances of both step facts. -/
theorem fence_heading_behavior_witness :
    (mdStep (fun s => s) "f" 3 "# H" ⟨[], ["x"], 0, 0, true⟩).chunks = [] ∧
    (mdStep (fun s => s) "f" 1 "# H" ⟨[], ["x"], 0, 0, false⟩).currentLines = ["# H"] := by
  constructor
  · exact (fence_heading_behavior.1 (fun s => s) "f" 3 "# H"
      ⟨[], ["x"], 0, 0, true⟩ (by decide)).1
  · exact (fence_heading_behavior.2.1 (fun s => s) "f" 1 "# H"
      ⟨[], ["x"], 0, 0, false⟩ rfl (by decide) (by decide) (by decide)).1

/-! ## C1: the text-locator invariant -/

theorem trimBlankLines_some {lines : List String} {tr : TrimResult}
    (h : trimBlankLines lines = some tr) :
    tr.trimmedLines =
      (lines.drop tr.startOffset).take (lines.length - tr.endOffset - tr.startOffset) ∧
    tr.startOffset ≤ lines.length ∧ tr.endOffset ≤ lines.length := by
  unfold trimBlankLines at h
  by_cases hs : (lines.takeWhile isBlankLine).length = lines.length
  · simp [hs] at h
  · simp only [hs, if_neg, not_false_iff] at h
    cases h
    refine ⟨rfl, List.Sublist.length_le (List.takeWhile_sublist _), ?_⟩
    calc (lines.reverse.takeWhile isBlankLine).length
        ≤ lines.reverse.length := List.Sublist.length_le (List.takeWhile_sublist _)
      _ = lines.length := List.length_reverse lines

/-- The key slice identity: a sub-slice of a buffer that is itself a slice
of `lines` is the corresponding slice of `lines`. -/
theorem slice_of_buffer_slice (lines cl : List String) (cs so amt : Nat)
    (hcur : cl = (lines.drop cs).take cl.length) (hamt : amt ≤ cl.length - so) :
    (cl.drop so).take amt = (lines.drop (cs + so)).take amt := by
  conv_lhs => rw [hcur]
  rw [List.drop_take, List.drop_drop, List.take_take]
  congr 1
  omega

theorem mdFlush_locator (h12 : String → String) (fileId : String)
    (lines : List String) (st : MdState)
    (hcur : st.currentLines = (lines.drop st.currentStart).take st.currentLines.length)
    (hprev : ∀ c ∈ st.chunks, LocatorOk lines c) :
    ∀ c ∈ (mdFlush h12 fileId st).chunks, LocatorOk lines c := by
  intro c hc
  unfold mdFlush at hc
  cases htr : trimBlankLines st.currentLines with
  | none => rw [htr] at hc; exact hprev c hc
  | some tr =>
    rw [htr] at hc
    simp only at hc
    rcases List.mem_append.mp hc with hcl | hcl
    · exact hprev c hcl
    · simp only [List.mem_singleton] at hcl
      subst hcl
      obtain ⟨htl, hso, heo⟩ := trimBlankLines_some htr
      refine ⟨st.currentStart + tr.startOffset + 1,
        st.currentStart + st.currentLines.length - tr.endOffset, rfl, rfl, by omega, ?_⟩
      show String.intercalate "\n" _ = String.intercalate "\n" tr.trimmedLines
      congr 1
      have e1 : st.currentStart + tr.startOffset + 1 - 1 =
          st.currentStart + tr.startOffset := by omega
      have e2 : st.currentStart + st.currentLines.length - tr.endOffset -
          (st.currentStart + tr.startOffset) =
          st.currentLines.length - tr.endOffset - tr.startOffset := by omega
      rw [e1, e2, htl,
        slice_of_buffer_slice lines st.currentLines st.currentStart
          tr.startOffset _ hcur (by omega)]

theorem mdStep_inv (h12 : String → String) (fileId : String) (lines : List String)
    (i : Nat) (line : String) (st : MdState)
    (hline : lines.drop i = line :: lines.drop (i + 1))
    (hinv : MdInv lines i st) : MdInv lines (i + 1) (mdStep h12 fileId i line st) := by
  obtain ⟨hcur, hlen, hchunks⟩ := hinv
  unfold mdStep
  by_cases hg : (!(if isFenceLine line then !st.inFencedBlock else st.inFencedBlock) &&
      isHeadingLine line && !st.currentLines.isEmpty) = true
  · simp only [hg, if_pos]
    refine ⟨?_, ?_, ?_⟩
    · show [line] = (lines.drop i).take 1
      rw [hline]
      rfl
    · simp
    · exact mdFlush_locator h12 fileId lines _ hcur hchunks
  · simp only [hg, if_neg, Bool.false_eq_true, not_false_iff]
    refine ⟨?_, ?_, hchunks⟩
    · show st.currentLines ++ [line] =
        (lines.drop st.currentStart).take (st.currentLines ++ [line]).length
      rw [List.length_append, List.length_singleton, List.take_add, ← hcur,
        List.drop_drop, hlen, hline]
      rfl
    · simp only [List.length_append, List.length_singleton]
      omega

theorem mdGo_locator (h12 : String → String) (fileId : String) (lines : List String) :
    ∀ (rest : List String) (i : Nat) (st : MdState),
      rest = lines.drop i → MdInv lines i st →
      ∀ c ∈ mdGo h12 fileId rest i st, LocatorOk lines c := by
  intro rest
  induction rest with
  | nil =>
    intro i st _ hinv c hc
    obtain ⟨hcur, _, hchunks⟩ := hinv
    unfold mdGo at hc
    by_cases he : st.currentLines.isEmpty = true
    · rw [if_pos he] at hc
      exact hchunks c hc
    · rw [if_neg (by simp [he])] at hc
      exact mdFlush_locator h12 fileId lines st hcur hchunks c hc
  | cons line rest' ih =>
    intro i st hrest hinv c hc
    unfold mdGo at hc
    have hdrop : lines.drop (i + 1) = rest' := by
      have h2 : (lines.drop i).drop 1 = (line :: rest').drop 1 := by rw [hrest]
      rw [List.drop_drop] at h2
      simpa using h2
    refine ih (i + 1) (mdStep h12 fileId i line st) hdrop.symm ?_ c hc
    exact mdStep_inv h12 fileId lines i line st (by rw [← hrest, hdrop]) ⟨hinv.1, hinv.2.1, hinv.2.2⟩

theorem chunkMarkdown_locator (h12 : String → String) (content fileId : String) :
    ∀ c ∈ chunkMarkdown h12 content fileId, LocatorOk (splitLines content) c := by
  intro c hc
  exact mdGo_locator h12 fileId (splitLines content) (splitLines content) 0
    ⟨[], [], 0, 0, false⟩ (List.drop_zero _).symm ⟨by simp, by simp, by simp⟩ c hc

theorem ptFlush_locator (h12 : String → String) (fileId : String)
    (lines : List String) (i : Nat) (st : PtState) (hinv : PtInv lines i st) :
    ∀ c ∈ (ptFlush h12 fileId st).chunks, LocatorOk lines c := by
  obtain ⟨hcs, hchunks⟩ := hinv
  intro c hc
  unfold ptFlush at hc
  cases hcl : st.currentLines with
  | nil =>
    rw [hcl] at hc
    exact hchunks c hc
  | cons a t =>
    rw [hcl] at hc
    rw [← hcl] at hc
    cases hst : st.currentStart with
    | none =>
      rw [hst] at hcs
      simp only at hcs
      rw [hcs] at hcl
      cases hcl
    | some cs =>
      rw [hst] at hcs
      simp only at hcs
      obtain ⟨hcur, hlen, _⟩ := hcs
      rw [hst] at hc
      simp only [Option.getD_some] at hc
      rcases List.mem_append.mp hc with hcl2 | hcl2
      · exact hchunks c hcl2
      · simp only [List.mem_singleton] at hcl2
        subst hcl2
        refine ⟨cs + 1, cs + st.currentLines.length, rfl, rfl, by omega, ?_⟩
        show String.intercalate "\n" _ = String.intercalate "\n" st.currentLines
        congr 1
        have e1 : cs + 1 - 1 = cs := by omega
        have e2 : cs + st.currentLines.length - cs = st.currentLines.length := by omega
        rw [e1, e2]
        exact hcur.symm

theorem ptFlush_fields (h12 : String → String) (fileId : String) (st : PtState)
    (hne : st.currentLines ≠ []) :
    (ptFlush h12 fileId st).currentLines = [] ∧
    (ptFlush h12 fileId st).currentStart = none := by
  unfold ptFlush
  cases hcl : st.currentLines with
  | nil => exact absurd hcl hne
  | cons a t => exact ⟨rfl, rfl⟩

theorem ptStep_inv (h12 : String → String) (fileId : String) (lines : List String)
    (i : Nat) (line : String) (st : PtState)
    (hline : lines.drop i = line :: lines.drop (i + 1))
    (hinv : PtInv lines i st) : PtInv lines (i + 1) (ptStep h12 fileId i line st) := by
  obtain ⟨hcs, hchunks⟩ := hinv
  unfold ptStep
  cases hst : st.currentStart with
  | none =>
    rw [hst] at hcs
    simp only at hcs
    by_cases hb : isBlankLine line = true
    · simp only [hb, if_pos]
      unfold PtInv
      rw [hst]
      exact ⟨hcs, hchunks⟩
    · simp only [hb, Bool.false_eq_true, if_neg, not_false_iff]
      unfold PtInv
      simp only
      refine ⟨⟨?_, ?_, by simp⟩, hchunks⟩
      · show st.currentLines ++ [line] = (lines.drop i).take (st.currentLines ++ [line]).length
        rw [hcs, hline]
        rfl
      · rw [hcs]
        simp
  | some cs =>
    rw [hst] at hcs
    simp only at hcs
    obtain ⟨hcur, hlen, hne⟩ := hcs
    by_cases hb : isBlankLine line = true
    · simp only [hb, if_pos]
      obtain ⟨hf1, hf2⟩ := ptFlush_fields h12 fileId st hne
      unfold PtInv
      rw [hf2]
      refine ⟨hf1, ?_⟩
      exact ptFlush_locator h12 fileId lines i st ⟨by rw [hst]; exact ⟨hcur, hlen, hne⟩, hchunks⟩
    · simp only [hb, Bool.false_eq_true, if_neg, not_false_iff]
      unfold PtInv
      simp only
      refine ⟨⟨?_, ?_, by simp⟩, hchunks⟩
      · show st.currentLines ++ [line] = (lines.drop cs).take (st.currentLines ++ [line]).length
        rw [List.length_append, List.length_singleton, List.take_add, ← hcur,
          List.drop_drop, hlen, hline]
        rfl
      · simp only [List.length_append, List.length_singleton]
        omega

theorem ptGo_locator (h12 : String → String) (fileId : String) (lines : List String) :
    ∀ (rest : List String) (i : Nat) (st : PtState),
      rest = lines.drop i → PtInv lines i st →
      ∀ c ∈ ptGo h12 fileId rest i st, LocatorOk lines c := by
  intro rest
  induction rest with
  | nil =>
    intro i st _ hinv c hc
    unfold ptGo at hc
    exact ptFlush_locator h12 fileId lines i st hinv c hc
  | cons line rest' ih =>
    intro i st hrest hinv c hc
    unfold ptGo at hc
    have hdrop : lines.drop (i + 1) = rest' := by
      have h2 : (lines.drop i).drop 1 = (line :: rest').drop 1 := by rw [hrest]
      rw [List.drop_drop] at h2
      simpa using h2
    refine ih (i + 1) (ptStep h12 fileId i line st) hdrop.symm ?_ c hc
    exact ptStep_inv h12 fileId lines i line st (by rw [← hrest, hdrop]) hinv

theorem chunkPlainText_locator (h12 : String → String) (content fileId : String) :
    ∀ c ∈ chunkPlainText h12 content fileId, LocatorOk (splitLines content) c := by
  intro c hc
  exact ptGo_locator h12 fileId (splitLines content) (splitLines content) 0
    ⟨[], [], none, 0⟩ (List.drop_zero _).symm ⟨by simp [PtInv], by simp⟩ c hc

/-- C1: for every source file in either supported format, every emitted chunk
carries a 1-based inclusive line range, and splitting the file's content on
newline, slicing the half-open range `[line_start - 1, line_end)` and joining
with a newline yields exactly the chunk's text — for heading-delimited
(`chunkMarkdown`) and paragraph-delimited (`chunkPlainText`) inputs alike,
including files with leading and trailing blank lines (which the chunkers
exclude from both text and range). -/
theorem text_locator_invariant (h12 : String → String) (content fileId : String)
    (c : Chunk)
    (hc : c ∈ chunkMarkdown h12 content fileId ∨ c ∈ chunkPlainText h12 content fileId) :
    LocatorOk (splitLines content) c := by
  rcases hc with hc | hc
  · exact chunkMarkdown_locator h12 content fileId c hc
  · exact chunkPlainText_locator h12 content fileId c hc

/-- Witness for C1: the single paragraph chunk of `"\nalpha\nbeta\n"` (a file
with leading and trailing blank lines) satisfies the locator invariant. -/
theorem text_locator_invariant_witness :
    LocatorOk (splitLines "\nalpha\nbeta\n") samplePtChunk :=
  text_locator_invariant (fun s => s) "\nalpha\nbeta\n" "f" samplePtChunk
    (Or.inr (by decide))

/-! ## Orchestrator: equation lemmas for the attempt loop -/

theorem stageLoop_throw (stage : PipelineStage) (input : Value) (attempt : Nat)
    (st : OrchState) (msg : String)
    (h : stage.run input attempt = StageRunResult.threw msg) :
    stageLoop stage input attempt st = .fatal (writeRunMetadata
      { (logEntry (.stageThrew stage.name msg) st) with
        meta := { st.meta with status := .failed, error := some msg } }) := by
  rw [stageLoop, h]
  rfl

theorem stageLoop_ok (stage : PipelineStage) (input : Value) (attempt : Nat)
    (st : OrchState) (out v : Value)
    (h1 : stage.run input attempt = StageRunResult.returned out)
    (h2 : stage.outputSchema out = Except.ok v) :
    stageLoop stage input attempt st = .success v st := by
  rw [stageLoop, h1]
  show (match stage.outputSchema out with
    | Except.ok v => LoopResult.success v st
    | Except.error summary =>
      if MAX_RETRIES < attempt then
        LoopResult.fatal (writeRunMetadata
          { (logEntry (.validationFailedFinal stage.name attempt) st) with
            meta := { st.meta with status := .failed, error := some summary } })
      else stageLoop stage input (attempt + 1)
        (logEntry (.retrying stage.name attempt) st)) = LoopResult.success v st
  rw [h2]

theorem stageLoop_retry (stage : PipelineStage) (input : Value) (attempt : Nat)
    (st : OrchState) (out : Value) (e : String)
    (h1 : stage.run input attempt = StageRunResult.returned out)
    (h2 : stage.outputSchema out = Except.error e)
    (h3 : attempt ≤ MAX_RETRIES) :
    stageLoop stage input attempt st =
      stageLoop stage input (attempt + 1) (logEntry (.retrying stage.name attempt) st) := by
  rw [stageLoop, h1]
  simp only [h2]
  rw [dif_neg (by omega)]

theorem stageLoop_final (stage : PipelineStage) (input : Value) (attempt : Nat)
    (st : OrchState) (out : Value) (e : String)
    (h1 : stage.run input attempt = StageRunResult.returned out)
    (h2 : stage.outputSchema out = Except.error e)
    (h3 : MAX_RETRIES < attempt) :
    stageLoop stage input attempt st = .fatal (writeRunMetadata
      { (logEntry (.validationFailedFinal stage.name attempt) st) with
        meta := { st.meta with status := .failed, error := some e } }) := by
  rw [stageLoop, h1]
  simp only [h2]
  rw [dif_pos h3]
  rfl

theorem fileContent_concat (j : List (String × FileData)) (n : String)
    (d : FileData) (f : String) :
    fileContent (j ++ [(n, d)]) f =
      if n == f then some d else fileContent j f := by
  unfold fileContent
  rw [List.reverse_append]
  by_cases h : (n == f) = true
  · simp [List.find?, h]
  · simp only [Bool.not_eq_true] at h
    simp [List.find?, h]

/-! ## C3: a raised stage error halts the run, preserving prior progress -/

/-- C3: from any mid-run state (in particular, after any number of earlier
stages completed, with their artifacts in the journal and their names in
`stages_completed`), a stage whose operation raises halts the run
immediately: the final status is `failed` with the raised message recorded
verbatim, no retry of the stage is attempted (no retry log entry is added and
no further stage runs), `stages_completed` is unchanged, and the only file
written afterwards is `run.json` — so the artifact content of every other
file, and hence of every earlier stage, is preserved exactly. -/
theorem raise_halts_preserving_progress (completedAt : String)
    (bad : PipelineStage) (rest : List PipelineStage) (input : Value)
    (st : OrchState) (msg : String)
    (hthrow : bad.run input 1 = StageRunResult.threw msg) :
    (runStages completedAt (bad :: rest) input st).meta.status = .failed ∧
    (runStages completedAt (bad :: rest) input st).meta.error = some msg ∧
    (runStages completedAt (bad :: rest) input st).meta.stages_completed =
      st.meta.stages_completed ∧
    countRetries (runStages completedAt (bad :: rest) input st).log bad.name =
      countRetries st.log bad.name ∧
    (runStages completedAt (bad :: rest) input st).journal =
      st.journal ++ [("run.json", FileData.metaFile
        (runStages completedAt (bad :: rest) input st).meta)] ∧
    ∀ f, ("run.json" == f) = false →
      fileContent (runStages completedAt (bad :: rest) input st).journal f =
        fileContent st.journal f := by
  have hl := stageLoop_throw bad input 1 (logEntry (.stageStarted bad.name) st) msg hthrow
  have hrun : runStages completedAt (bad :: rest) input st =
      writeRunMetadata { (logEntry (.stageThrew bad.name msg)
          (logEntry (.stageStarted bad.name) st)) with
        meta := { st.meta with status := .failed, error := some msg } } := by
    rw [runStages, hl]
    rfl
  rw [hrun]
  refine ⟨rfl, rfl, rfl, ?_, rfl, ?_⟩
  · simp [countRetries, writeRunMetadata, logEntry, List.countP_append]
  · intro f hf
    show fileContent (st.journal ++ [("run.json", _)]) f = fileContent st.journal f
    rw [fileContent_concat, if_neg (by simp [hf])]

/-- Witness for C3: a one-stage pipeline whose stage throws, started from the
pipeline's initial state. -/
theorem raise_halts_preserving_progress_witness :
    (runStages "t1"
      [{ name := "ingest", run := fun _ _ => .threw "boom",
         outputSchema := fun v => Except.ok v, outputFilename := "chunks.json" }]
      Value.vnone
      { meta := { run_id := "r", assignment_id := "a", started_at := "t0",
                  completed_at := none, stages_completed := [],
                  status := .running, error := none },
        journal := [], log := [] }).meta.status = .failed := by
  have h := raise_halts_preserving_progress "t1"
    { name := "ingest", run := fun _ _ => .threw "boom",
      outputSchema := fun v => Except.ok v, outputFilename := "chunks.json" }
    [] Value.vnone
    { meta := { run_id := "r", assignment_id := "a", started_at := "t0",
                completed_at := none, stages_completed := [],
                status := .running, error := none },
      journal := [], log := [] }
    "boom" rfl
  exact h.1

/-! ## C2: validate-then-retry with a bound of 3 attempts -/

/-- C2: the orchestrator validates every returned candidate against the
stage's output schema and re-executes the stage on validation failure, up to
2 additional attempts (3 total), logging one retry entry per failed
non-final attempt. A stage invalid on attempts 1 and 2 and valid on attempt 3
completes the run with the stage recorded in `stages_completed` and exactly
two retry log entries; a stage invalid on all 3 attempts fails the run with
the third attempt's validation-issue summary as the recorded error, the
stage absent from `stages_completed`, and still exactly two retry entries. -/
theorem bounded_retry_policy (run_id startedAt completedAt assignment_id : String)
    (stage : PipelineStage) (input : Value) (o1 o2 o3 : Value) (e1 e2 : String)
    (hr1 : stage.run input 1 = StageRunResult.returned o1)
    (hv1 : stage.outputSchema o1 = Except.error e1)
    (hr2 : stage.run input 2 = StageRunResult.returned o2)
    (hv2 : stage.outputSchema o2 = Except.error e2)
    (hr3 : stage.run input 3 = StageRunResult.returned o3) :
    (∀ v3, stage.outputSchema o3 = Except.ok v3 →
      strEndsWith stage.outputFilename ".json" = true →
      (runPipeline run_id startedAt completedAt assignment_id [stage] input).meta.status
          = .completed ∧
      (runPipeline run_id startedAt completedAt assignment_id [stage] input).meta.stages_completed
          = [stage.name] ∧
      countRetries (runPipeline run_id startedAt completedAt assignment_id [stage] input).log
          stage.name = 2) ∧
    (∀ e3, stage.outputSchema o3 = Except.error e3 →
      (runPipeline run_id startedAt completedAt assignment_id [stage] input).meta.status
          = .failed ∧
      (runPipeline run_id startedAt completedAt assignment_id [stage] input).meta.error
          = some e3 ∧
      (runPipeline run_id startedAt completedAt assignment_id [stage] input).meta.stages_completed
          = [] ∧
      countRetries (runPipeline run_id startedAt completedAt assignment_id [stage] input).log
          stage.name = 2) := by
  constructor
  · intro v3 hv3 hjson
    have hpro : runPipeline run_id startedAt completedAt assignment_id [stage] input =
        runStages completedAt [stage] input
          { meta := { run_id := run_id, assignment_id := assignment_id, started_at := startedAt, completed_at := none, stages_completed := [], status := .running, error := none },
            journal := [("run.json", FileData.metaFile { run_id := run_id, assignment_id := assignment_id, started_at := startedAt, completed_at := none, stages_completed := [], status := .running, error := none })],
            log := [LogEntry.pipelineStarted assignment_id 1] } := rfl
    rw [hpro]
    rw [runStages]
    rw [stageLoop_retry stage input 1 _ o1 e1 hr1 hv1 (by decide)]
    rw [stageLoop_retry stage input 2 _ o2 e2 hr2 hv2 (by decide)]
    rw [stageLoop_ok stage input 3 _ o3 v3 hr3 hv3]
    simp only [hjson, if_true]
    rw [runStages]
    refine ⟨rfl, rfl, ?_⟩
    simp [countRetries, logEntry, writeRunMetadata, List.countP_append, List.countP_cons]
  · intro e3 hv3
    have hpro : runPipeline run_id startedAt completedAt assignment_id [stage] input =
        runStages completedAt [stage] input
          { meta := { run_id := run_id, assignment_id := assignment_id, started_at := startedAt, completed_at := none, stages_completed := [], status := .running, error := none },
            journal := [("run.json", FileData.metaFile { run_id := run_id, assignment_id := assignment_id, started_at := startedAt, completed_at := none, stages_completed := [], status := .running, error := none })],
            log := [LogEntry.pipelineStarted assignment_id 1] } := rfl
    rw [hpro]
    rw [runStages]
    rw [stageLoop_retry stage input 1 _ o1 e1 hr1 hv1 (by decide)]
    rw [stageLoop_retry stage input 2 _ o2 e2 hr2 hv2 (by decide)]
    rw [stageLoop_final stage input 3 _ o3 e3 hr3 hv3 (by decide)]
    refine ⟨rfl, rfl, rfl, ?_⟩
    simp [countRetries, logEntry, writeRunMetadata, List.countP_append, List.countP_cons]

/-- Witness for C2: a concrete stage that returns an invalid candidate on
attempts 1 and 2 and a valid string on attempt 3. -/
theorem bounded_retry_policy_witness :
    (runPipeline "r" "t0" "t1" "a"
      [{ name := "ingest",
         run := fun _ attempt =>
           .returned (if attempt < 3 then Value.vnone else Value.vstr "done"),
         outputSchema := fun v =>
           match v with
           | Value.vstr s => Except.ok (Value.vstr s)
           | _ => Except.error "expected string",
         outputFilename := "chunks.json" }]
      Value.vnone).meta.status = .completed := by
  have h := (bounded_retry_policy "r" "t0" "t1" "a"
    { name := "ingest",
      run := fun _ attempt =>
        .returned (if attempt < 3 then Value.vnone else Value.vstr "done"),
      outputSchema := fun v =>
        match v with
        | Value.vstr s => Except.ok (Value.vstr s)
        | _ => Except.error "expected string",
      outputFilename := "chunks.json" }
    Value.vnone Value.vnone Value.vnone (Value.vstr "done")
    "expected string" "expected string" rfl rfl rfl rfl rfl).1
    (Value.vstr "done") rfl (by decide)
  exact h.1

/-! ## C9: metadata discipline (append-only, terminal status, persisted) -/

theorem metaWrites_append (j j' : List (String × FileData)) :
    metaWrites (j ++ j') = metaWrites j ++ metaWrites j' :=
  List.filterMap_append j j' _

theorem metaWrites_concat_meta (j : List (String × FileData)) (m : RunMetadata) :
    metaWrites (j ++ [("run.json", FileData.metaFile m)]) = metaWrites j ++ [m] := by
  rw [metaWrites_append]
  rfl

theorem metaWrites_concat_json (j : List (String × FileData)) (n : String) (v : Value) :
    metaWrites (j ++ [(n, FileData.jsonArtifact v)]) = metaWrites j := by
  rw [metaWrites_append]
  simp [metaWrites]

theorem metaWrites_concat_text (j : List (String × FileData)) (n s : String) :
    metaWrites (j ++ [(n, FileData.textArtifact s)]) = metaWrites j := by
  rw [metaWrites_append]
  simp [metaWrites]

theorem head?_append_left {α : Type} {l : List α} (l' : List α) (h : l ≠ []) :
    (l ++ l').head? = l.head? := by
  cases l with
  | nil => exact absurd rfl h
  | cons a t => rfl

theorem chain'_concat_of_getLast {R : RunMetadata → RunMetadata → Prop}
    {l : List RunMetadata} {a b : RunMetadata}
    (hc : List.Chain' R l) (hl : l.getLast? = some a) (hab : R a b) :
    List.Chain' R (l ++ [b]) := by
  rw [List.chain'_append]
  refine ⟨hc, List.chain'_singleton b, ?_⟩
  intro x hx y hy
  rw [hl, Option.mem_def, Option.some.injEq] at hx
  simp only [List.head?_cons, Option.mem_def, Option.some.injEq] at hy
  subst hx
  subst hy
  exact hab

/-- Either outcome of the per-stage attempt loop, abstractly: success leaves
metadata and journal untouched (only audit-log entries are added); the fatal
path sets `failed` with some error and appends exactly one `run.json`
rewrite. -/
theorem stageLoop_shape (stage : PipelineStage) (input : Value) :
    ∀ (attempt : Nat) (st : OrchState),
      (∃ v st', stageLoop stage input attempt st = .success v st' ∧
        st'.meta = st.meta ∧ st'.journal = st.journal) ∨
      (∃ e stf, stageLoop stage input attempt st = .fatal stf ∧
        stf.meta = { st.meta with status := .failed, error := some e } ∧
        stf.journal = st.journal ++ [("run.json", FileData.metaFile stf.meta)]) := by
  intro attempt st
  induction attempt, st using stageLoop.induct stage input with
  | case1 attempt st msg h =>
    right
    exact ⟨msg, _, stageLoop_throw stage input attempt st msg h, rfl, rfl⟩
  | case2 attempt st out h1 v h2 =>
    left
    exact ⟨v, st, stageLoop_ok stage input attempt st out v h1 h2, rfl, rfl⟩
  | case3 attempt st out h1 e h2 h3 =>
    right
    exact ⟨e, _, stageLoop_final stage input attempt st out e h1 h2 h3, rfl, rfl⟩
  | case4 attempt st out h1 e h2 h3 ih =>
    rw [stageLoop_retry stage input attempt st out e h1 h2 (by omega)]
    rcases ih with ⟨v, st', heq, hm, hj⟩ | ⟨e2, stf, heq, hm, hj⟩
    · exact Or.inl ⟨v, st', heq, hm, hj⟩
    · exact Or.inr ⟨e2, stf, heq, hm, hj⟩

theorem runStages_discipline (completedAt : String) :
    ∀ (stages : List PipelineStage) (input : Value) (st : OrchState),
      MetaInv st →
      List.Chain' MetaStep (metaWrites (runStages completedAt stages input st).journal) ∧
      (metaWrites (runStages completedAt stages input st).journal).getLast? =
        some (runStages completedAt stages input st).meta ∧
      (metaWrites (runStages completedAt stages input st).journal).head? =
        (metaWrites st.journal).head? := by
  intro stages
  induction stages with
  | nil =>
    intro input st hinv
    obtain ⟨hne, hlast, hchain, hrun⟩ := hinv
    have hJ : (runStages completedAt [] input st).journal =
        st.journal ++ [("run.json", FileData.metaFile { st.meta with status := .completed, completed_at := some completedAt })] := rfl
    have hM : (runStages completedAt [] input st).meta =
        { st.meta with status := .completed, completed_at := some completedAt } := rfl
    rw [hJ, hM, metaWrites_concat_meta]
    exact ⟨chain'_concat_of_getLast hchain hlast ⟨hrun, List.prefix_refl _⟩,
      List.getLast?_concat _, head?_append_left _ hne⟩
  | cons stage rest ih =>
    intro input st hinv
    obtain ⟨hne, hlast, hchain, hrun⟩ := hinv
    rcases stageLoop_shape stage input 1 (logEntry (.stageStarted stage.name) st) with
      ⟨v, st', heq, hm, hj⟩ | ⟨e, stf, heq, hm, hj⟩
    · by_cases hjson : strEndsWith stage.outputFilename ".json" = true
      · have hred : runStages completedAt (stage :: rest) input st =
            runStages completedAt rest v (writeRunMetadata { (logEntry (.stageCompleted stage.name stage.outputFilename) { st' with journal := st'.journal ++ [(stage.outputFilename, FileData.jsonArtifact v)] }) with meta := { st'.meta with stages_completed := st'.meta.stages_completed ++ [stage.name] } }) := by
          rw [runStages, heq]
          show (if strEndsWith stage.outputFilename ".json" = true then _ else _) = _
          rw [if_pos hjson]
          rfl
        rw [hred]
        have hinv2 : MetaInv (writeRunMetadata { (logEntry (.stageCompleted stage.name stage.outputFilename) { st' with journal := st'.journal ++ [(stage.outputFilename, FileData.jsonArtifact v)] }) with meta := { st'.meta with stages_completed := st'.meta.stages_completed ++ [stage.name] } }) := by
          have hJ2 : (writeRunMetadata { (logEntry (.stageCompleted stage.name stage.outputFilename) { st' with journal := st'.journal ++ [(stage.outputFilename, FileData.jsonArtifact v)] }) with meta := { st'.meta with stages_completed := st'.meta.stages_completed ++ [stage.name] } }).journal =
              (st'.journal ++ [(stage.outputFilename, FileData.jsonArtifact v)]) ++ [("run.json", FileData.metaFile { st'.meta with stages_completed := st'.meta.stages_completed ++ [stage.name] })] := rfl
          refine ⟨?_, ?_, ?_, ?_⟩
          · rw [hJ2, metaWrites_append, hj, metaWrites_concat_json]
            simp [metaWrites]
          · rw [hJ2, metaWrites_append, hj, metaWrites_concat_json]
            show (metaWrites st.journal ++ [_]).getLast? = some _
            rw [List.getLast?_concat]
            rfl
          · rw [hJ2, metaWrites_append, hj, metaWrites_concat_json]
            show List.Chain' MetaStep (metaWrites st.journal ++ [_])
            refine chain'_concat_of_getLast hchain hlast ⟨hrun, ?_⟩
            rw [hm]
            exact List.prefix_append _ _
          · show ({ st'.meta with stages_completed := st'.meta.stages_completed ++ [stage.name] } : RunMetadata).status = RunStatus.running
            rw [hm]
            exact hrun
        obtain ⟨hc2, hl2, hh2⟩ := ih v _ hinv2
        refine ⟨hc2, hl2, ?_⟩
        rw [hh2]
        show (metaWrites ((st'.journal ++ [(stage.outputFilename, FileData.jsonArtifact v)]) ++ [("run.json", FileData.metaFile _)])).head? = _
        rw [metaWrites_append, hj, metaWrites_concat_json]
        exact head?_append_left _ hne
      · cases v with
        | vstr sOut =>
          have hred : runStages completedAt (stage :: rest) input st =
              runStages completedAt rest (Value.vstr sOut) (writeRunMetadata { (logEntry (.stageCompleted stage.name stage.outputFilename) { st' with journal := st'.journal ++ [(stage.outputFilename, FileData.textArtifact sOut)] }) with meta := { st'.meta with stages_completed := st'.meta.stages_completed ++ [stage.name] } }) := by
            rw [runStages, heq]
            show (if strEndsWith stage.outputFilename ".json" = true then _ else _) = _
            rw [if_neg hjson]
            rfl
          rw [hred]
          have hinv2 : MetaInv (writeRunMetadata { (logEntry (.stageCompleted stage.name stage.outputFilename) { st' with journal := st'.journal ++ [(stage.outputFilename, FileData.textArtifact sOut)] }) with meta := { st'.meta with stages_completed := st'.meta.stages_completed ++ [stage.name] } }) := by
            have hJ2 : (writeRunMetadata { (logEntry (.stageCompleted stage.name stage.outputFilename) { st' with journal := st'.journal ++ [(stage.outputFilename, FileData.textArtifact sOut)] }) with meta := { st'.meta with stages_completed := st'.meta.stages_completed ++ [stage.name] } }).journal =
                (st'.journal ++ [(stage.outputFilename, FileData.textArtifact sOut)]) ++ [("run.json", FileData.metaFile { st'.meta with stages_completed := st'.meta.stages_completed ++ [stage.name] })] := rfl
            refine ⟨?_, ?_, ?_, ?_⟩
            · rw [hJ2, metaWrites_append, hj, metaWrites_concat_text]
              simp [metaWrites]
            · rw [hJ2, metaWrites_append, hj, metaWrites_concat_text]
              show (metaWrites st.journal ++ [_]).getLast? = some _
              rw [List.getLast?_concat]
              rfl
            · rw [hJ2, metaWrites_append, hj, metaWrites_concat_text]
              show List.Chain' MetaStep (metaWrites st.journal ++ [_])
              refine chain'_concat_of_getLast hchain hlast ⟨hrun, ?_⟩
              rw [hm]
              exact List.prefix_append _ _
            · show ({ st'.meta with stages_completed := st'.meta.stages_completed ++ [stage.name] } : RunMetadata).status = RunStatus.running
              rw [hm]
              exact hrun
          obtain ⟨hc2, hl2, hh2⟩ := ih (Value.vstr sOut) _ hinv2
          refine ⟨hc2, hl2, ?_⟩
          rw [hh2]
          show (metaWrites ((st'.journal ++ [(stage.outputFilename, FileData.textArtifact sOut)]) ++ [("run.json", FileData.metaFile _)])).head? = _
          rw [metaWrites_append, hj, metaWrites_concat_text]
          exact head?_append_left _ hne
        | vnone =>
          have hred : runStages completedAt (stage :: rest) input st =
              writeRunMetadata { (logEntry (.wrongOutputTypeLogged ("Stage \'" ++ stage.name ++ "\' output must be a string for non-JSON filename \'" ++ stage.outputFilename ++ "\', got " ++ typeofValue Value.vnone)) st') with meta := { st'.meta with status := .failed, error := some ("Stage \'" ++ stage.name ++ "\' output must be a string for non-JSON filename \'" ++ stage.outputFilename ++ "\', got " ++ typeofValue Value.vnone) } } := by
            rw [runStages, heq]
            show (if strEndsWith stage.outputFilename ".json" = true then _ else _) = _
            rw [if_neg hjson]
            rfl
          rw [hred]
          have hJ2 : (writeRunMetadata { (logEntry (.wrongOutputTypeLogged ("Stage \'" ++ stage.name ++ "\' output must be a string for non-JSON filename \'" ++ stage.outputFilename ++ "\', got " ++ typeofValue Value.vnone)) st') with meta := { st'.meta with status := .failed, error := some ("Stage \'" ++ stage.name ++ "\' output must be a string for non-JSON filename \'" ++ stage.outputFilename ++ "\', got " ++ typeofValue Value.vnone) } }).journal =
              st'.journal ++ [("run.json", FileData.metaFile { st'.meta with status := .failed, error := some ("Stage \'" ++ stage.name ++ "\' output must be a string for non-JSON filename \'" ++ stage.outputFilename ++ "\', got " ++ typeofValue Value.vnone) })] := rfl
          rw [hJ2, hj, metaWrites_concat_meta]
          refine ⟨chain'_concat_of_getLast hchain hlast ⟨hrun, ?_⟩,
            List.getLast?_concat _, head?_append_left _ hne⟩
          rw [hm]
          exact List.prefix_refl _
        | vother n =>
          have hred : runStages completedAt (stage :: rest) input st =
              writeRunMetadata { (logEntry (.wrongOutputTypeLogged ("Stage \'" ++ stage.name ++ "\' output must be a string for non-JSON filename \'" ++ stage.outputFilename ++ "\', got " ++ typeofValue (Value.vother n))) st') with meta := { st'.meta with status := .failed, error := some ("Stage \'" ++ stage.name ++ "\' output must be a string for non-JSON filename \'" ++ stage.outputFilename ++ "\', got " ++ typeofValue (Value.vother n)) } } := by
            rw [runStages, heq]
            show (if strEndsWith stage.outputFilename ".json" = true then _ else _) = _
            rw [if_neg hjson]
            rfl
          rw [hred]
          have hJ2 : (writeRunMetadata { (logEntry (.wrongOutputTypeLogged ("Stage \'" ++ stage.name ++ "\' output must be a string for non-JSON filename \'" ++ stage.outputFilename ++ "\', got " ++ typeofValue (Value.vother n))) st') with meta := { st'.meta with status := .failed, error := some ("Stage \'" ++ stage.name ++ "\' output must be a string for non-JSON filename \'" ++ stage.outputFilename ++ "\', got " ++ typeofValue (Value.vother n)) } }).journal =
              st'.journal ++ [("run.json", FileData.metaFile { st'.meta with status := .failed, error := some ("Stage \'" ++ stage.name ++ "\' output must be a string for non-JSON filename \'" ++ stage.outputFilename ++ "\', got " ++ typeofValue (Value.vother n)) })] := rfl
          rw [hJ2, hj, metaWrites_concat_meta]
          refine ⟨chain'_concat_of_getLast hchain hlast ⟨hrun, ?_⟩,
            List.getLast?_concat _, head?_append_left _ hne⟩
          rw [hm]
          exact List.prefix_refl _
    · have hred : runStages completedAt (stage :: rest) input st = stf := by
        rw [runStages, heq]
      rw [hred, hj]
      show List.Chain' MetaStep (metaWrites ((logEntry _ st).journal ++ _)) ∧
        (metaWrites ((logEntry _ st).journal ++ _)).getLast? = some stf.meta ∧
        (metaWrites ((logEntry _ st).journal ++ _)).head? = (metaWrites st.journal).head?
      show List.Chain' MetaStep (metaWrites (st.journal ++ _)) ∧
        (metaWrites (st.journal ++ _)).getLast? = some stf.meta ∧
        (metaWrites (st.journal ++ _)).head? = (metaWrites st.journal).head?
      rw [metaWrites_concat_meta]
      refine ⟨chain'_concat_of_getLast hchain hlast ⟨hrun, ?_⟩,
        List.getLast?_concat _, head?_append_left _ hne⟩
      rw [hm]
      exact List.prefix_refl _

/-- In a `MetaStep` chain every element except possibly the last is still
`running`. -/
theorem chain'_dropLast_running :
    ∀ (l : List RunMetadata), List.Chain' MetaStep l →
      ∀ m ∈ l.dropLast, m.status = RunStatus.running := by
  intro l
  induction l with
  | nil => intro _ m hm; simp at hm
  | cons a t ih =>
    intro hc m hm
    cases t with
    | nil => simp at hm
    | cons b t2 =>
      have hc2 := List.chain'_cons.mp hc
      rcases List.mem_cons.mp (by simpa using hm) with hma | hm2
      · rw [hma]
        exact hc2.1.1
      · exact ih hc2.2 m hm2

/-- C9: across the successive `run.json` states written during a pipeline
run, consecutive writes always go from a `running` state (terminal statuses
are never overwritten) extending `stages_completed` by a (possibly empty)
suffix — so `stages_completed` is append-only and `status` only transitions
running→completed or running→failed; every non-final write is `running`; the
metadata file is rewritten after every mutation, so the last written state
equals the returned metadata, and the first is the initial `running` record. -/
theorem metadata_discipline (run_id startedAt completedAt assignment_id : String)
    (stages : List PipelineStage) (input : Value) :
    List.Chain' MetaStep
      (metaWrites (runPipeline run_id startedAt completedAt assignment_id stages input).journal) ∧
    (metaWrites (runPipeline run_id startedAt completedAt assignment_id stages input).journal).getLast?
      = some (runPipeline run_id startedAt completedAt assignment_id stages input).meta ∧
    (metaWrites (runPipeline run_id startedAt completedAt assignment_id stages input).journal).head?
      = some { run_id := run_id, assignment_id := assignment_id, started_at := startedAt, completed_at := none, stages_completed := [], status := .running, error := none } ∧
    ∀ m ∈ (metaWrites (runPipeline run_id startedAt completedAt assignment_id stages input).journal).dropLast,
      m.status = .running := by
  have hpro : runPipeline run_id startedAt completedAt assignment_id stages input =
      runStages completedAt stages input
        { meta := { run_id := run_id, assignment_id := assignment_id, started_at := startedAt, completed_at := none, stages_completed := [], status := .running, error := none },
          journal := [("run.json", FileData.metaFile { run_id := run_id, assignment_id := assignment_id, started_at := startedAt, completed_at := none, stages_completed := [], status := .running, error := none })],
          log := [LogEntry.pipelineStarted assignment_id stages.length] } := rfl
  have h := runStages_discipline completedAt stages input
    { meta := { run_id := run_id, assignment_id := assignment_id, started_at := startedAt, completed_at := none, stages_completed := [], status := .running, error := none },
      journal := [("run.json", FileData.metaFile { run_id := run_id, assignment_id := assignment_id, started_at := startedAt, completed_at := none, stages_completed := [], status := .running, error := none })],
      log := [LogEntry.pipelineStarted assignment_id stages.length] }
    ⟨by simp [metaWrites], by simp [metaWrites], by simp [metaWrites], rfl⟩
  obtain ⟨hc, hl, hh⟩ := h
  rw [hpro]
  refine ⟨hc, hl, by rw [hh]; simp [metaWrites], ?_⟩
  exact chain'_dropLast_running _ hc

/-! ## C4: ingest determinism and chunk-id uniqueness -/

theorem digitChar_ne_colon : ∀ n, Nat.digitChar n ≠ ':'
  | 0 => by decide
  | 1 => by decide
  | 2 => by decide
  | 3 => by decide
  | 4 => by decide
  | 5 => by decide
  | 6 => by decide
  | 7 => by decide
  | 8 => by decide
  | 9 => by decide
  | 10 => by decide
  | 11 => by decide
  | 12 => by decide
  | 13 => by decide
  | 14 => by decide
  | 15 => by decide
  | (n + 16) => by
    unfold Nat.digitChar
    repeat rw [if_neg (by omega)]
    decide

theorem toDigitsCore_no_colon (base : Nat) :
    ∀ (fuel n : Nat) (ds : List Char), (∀ c ∈ ds, c ≠ ':') →
      ∀ c ∈ Nat.toDigitsCore base fuel n ds, c ≠ ':' := by
  intro fuel
  induction fuel with
  | zero => intro n ds hds c hc; exact hds c hc
  | succ fuel ih =>
    intro n ds hds c hc
    simp only [Nat.toDigitsCore] at hc
    by_cases hz : n / base = 0
    · rw [if_pos hz] at hc
      rcases List.mem_cons.mp hc with hc | hc
      · rw [hc]; exact digitChar_ne_colon _
      · exact hds c hc
    · rw [if_neg hz] at hc
      refine ih (n / base) _ ?_ c hc
      intro c2 hc2
      rcases List.mem_cons.mp hc2 with hc2 | hc2
      · rw [hc2]; exact digitChar_ne_colon _
      · exact hds c2 hc2

theorem natRepr_no_colon (n : Nat) : ∀ c ∈ (Nat.repr n).toList, c ≠ ':' := by
  intro c hc
  exact toDigitsCore_no_colon 10 (n + 1) n [] (by simp) c hc

/-- Splitting at a separator absent from both suffixes is unambiguous. -/
theorem append_sep_inj {α : Type} (sep : α) :
    ∀ (a1 a2 b1 b2 : List α), sep ∉ b1 → sep ∉ b2 →
      a1 ++ sep :: b1 = a2 ++ sep :: b2 → a1 = a2 ∧ b1 = b2 := by
  intro a1
  induction a1 with
  | nil =>
    intro a2 b1 b2 hb1 hb2 heq
    cases a2 with
    | nil => simpa using heq
    | cons y t2 =>
      simp only [List.nil_append, List.cons_append, List.cons.injEq] at heq
      exfalso
      apply hb1
      rw [heq.2]
      simp
  | cons x t1 ih =>
    intro a2 b1 b2 hb1 hb2 heq
    cases a2 with
    | nil =>
      simp only [List.nil_append, List.cons_append, List.cons.injEq] at heq
      exfalso
      apply hb2
      rw [← heq.2]
      simp
    | cons y t2 =>
      simp only [List.cons_append, List.cons.injEq] at heq
      obtain ⟨h1, h2⟩ := ih t2 b1 b2 hb1 hb2 heq.2
      exact ⟨by rw [heq.1, h1], h2⟩

/-- Accumulator independence of `Nat.toDigitsCore`. -/
theorem toDigitsCore_shift (b : Nat) :
    ∀ (f n : Nat) (ds : List Char),
      Nat.toDigitsCore b f n ds = Nat.toDigitsCore b f n [] ++ ds := by
  intro f
  induction f with
  | zero => intro n ds; rfl
  | succ f ih =>
    intro n ds
    simp only [Nat.toDigitsCore]
    by_cases hz : n / b = 0
    · rw [if_pos hz, if_pos hz]
      rfl
    · rw [if_neg hz, if_neg hz, ih (n / b) [Nat.digitChar (n % b)],
        ih (n / b) (Nat.digitChar (n % b) :: ds), List.append_assoc]
      rfl

theorem digitVal_digitChar (m : Nat) (hm : m < 10) :
    digitVal (Nat.digitChar m) = m := by
  interval_cases m <;> decide

theorem decode_toDigitsCore (b10 : Nat) (hb : b10 = 10) :
    ∀ (f n : Nat), n < f → decodeDigits (Nat.toDigitsCore b10 f n []) = n := by
  subst hb
  intro f
  induction f with
  | zero => intro n hn; omega
  | succ f ih =>
    intro n hn
    simp only [Nat.toDigitsCore]
    by_cases hz : n / 10 = 0
    · rw [if_pos hz]
      have hlt : n < 10 := by omega
      show decodeDigits [Nat.digitChar (n % 10)] = n
      unfold decodeDigits
      simp only [List.foldl_cons, List.foldl_nil, Nat.zero_mul, Nat.zero_add]
      rw [digitVal_digitChar (n % 10) (Nat.mod_lt _ (by omega))]
      omega
    · rw [if_neg hz, toDigitsCore_shift]
      have hrec : n / 10 < f := by
        have h1 : 1 ≤ n / 10 := by omega
        have h2 : n / 10 < n := Nat.div_lt_self (by omega) (by omega)
        omega
      unfold decodeDigits
      rw [List.foldl_append]
      show decodeDigits (Nat.toDigitsCore 10 f (n / 10) []) * 10 +
        digitVal (Nat.digitChar (n % 10)) = n
      rw [ih (n / 10) hrec, digitVal_digitChar (n % 10) (Nat.mod_lt _ (by omega))]
      omega

theorem natRepr_inj (i1 i2 : Nat) (h : Nat.repr i1 = Nat.repr i2) : i1 = i2 := by
  have hdata : Nat.toDigits 10 i1 = Nat.toDigits 10 i2 := congrArg String.data h
  have h1 := decode_toDigitsCore 10 rfl (i1 + 1) i1 (by omega)
  have h2 := decode_toDigitsCore 10 rfl (i2 + 1) i2 (by omega)
  unfold Nat.toDigits at hdata
  rw [← h1, ← h2, hdata]

/-- The digest preimage `"${fileId}:${index}"` is injective in the pair. -/
theorem chunkIdKey_inj (f1 f2 : String) (i1 i2 : Nat)
    (h : chunkIdKey f1 i1 = chunkIdKey f2 i2) : f1 = f2 ∧ i1 = i2 := by
  unfold chunkIdKey at h
  have hdata : f1.data ++ ':' :: (Nat.repr i1).data =
      f2.data ++ ':' :: (Nat.repr i2).data := by
    have h2 := congrArg String.data h
    show f1.data ++ ([':'] ++ (Nat.repr i1).data) = f2.data ++ ([':'] ++ (Nat.repr i2).data)
    rw [← List.append_assoc, ← List.append_assoc]
    exact h2
  obtain ⟨hf, hr⟩ := append_sep_inj ':' f1.data f2.data
    (Nat.repr i1).data (Nat.repr i2).data
    (fun hm => natRepr_no_colon i1 ':' hm rfl)
    (fun hm => natRepr_no_colon i2 ':' hm rfl) hdata
  exact ⟨String.ext hf, natRepr_inj i1 i2 (String.ext hr)⟩

/-- `makeChunkId` is injective in `(fileId, index)` when the digest is. -/
theorem makeChunkId_inj (h12 : String → String) (hinj : Function.Injective h12)
    (f1 f2 : String) (i1 i2 : Nat)
    (h : makeChunkId h12 f1 i1 = makeChunkId h12 f2 i2) : f1 = f2 ∧ i1 = i2 := by
  unfold makeChunkId at h
  have hdig : h12 (f1 ++ ":" ++ toString i1) = h12 (f2 ++ ":" ++ toString i2) := by
    have h2 := congrArg String.data h
    have h3 : ("chunk-" : String).data ++ (h12 (f1 ++ ":" ++ toString i1)).data =
        ("chunk-" : String).data ++ (h12 (f2 ++ ":" ++ toString i2)).data := h2
    exact String.ext (List.append_cancel_left h3)
  exact chunkIdKey_inj f1 f2 i1 i2 (hinj hdig)

theorem disambiguate_perm (h8 : String → String) {l1 l2 : List FileEntry}
    (hp : l1.Perm l2) : (disambiguate h8 l1).Perm (disambiguate h8 l2) := by
  unfold disambiguate
  refine (hp.map _).trans ?_
  have h2 : l2.map (fun r => if 1 < l1.countP (fun x => x.fileId == r.fileId) then
        { r with fileId := h8 r.filePath ++ "/" ++ r.fileId } else r) =
      l2.map (fun r => if 1 < l2.countP (fun x => x.fileId == r.fileId) then
        { r with fileId := h8 r.filePath ++ "/" ++ r.fileId } else r) := by
    apply List.map_congr_left
    intro r _
    rw [hp.countP_eq]
  rw [h2]

theorem disambiguate_paths (h8 : String → String) (l : List FileEntry) :
    (disambiguate h8 l).map (fun e => e.filePath) = l.map (fun e => e.filePath) := by
  unfold disambiguate
  rw [List.map_map]
  apply List.map_congr_left
  intro r _
  by_cases hc : 1 < l.countP (fun x => x.fileId == r.fileId)
  · simp [hc]
  · simp [hc]

/-- Two sorted permutations of each other with pairwise-distinct file paths
are equal. -/
theorem sorted_unique_paths :
    ∀ (l1 l2 : List FileEntry), l1.Perm l2 →
      l1.Pairwise (fun a b => pathLe a b = true) →
      l2.Pairwise (fun a b => pathLe a b = true) →
      (l1.map (fun e => e.filePath)).Nodup → l1 = l2 := by
  intro l1
  induction l1 with
  | nil =>
    intro l2 hp _ _ _
    exact hp.nil_eq
  | cons a t1 ih =>
    intro l2 hp hs1 hs2 hnd
    cases l2 with
    | nil =>
      exact absurd hp.symm.nil_eq (by simp)
    | cons b t2 =>
      have hab : a = b := by
        by_contra hne
        have hbmem : b ∈ a :: t1 := hp.mem_iff.mpr (List.mem_cons_self b t2)
        have hamem : a ∈ b :: t2 := hp.mem_iff.mp (List.mem_cons_self a t1)
        have hb1 : b ∈ t1 := by
          rcases List.mem_cons.mp hbmem with h | h
          · exact absurd h.symm hne
          · exact h
        have ha2 : a ∈ t2 := by
          rcases List.mem_cons.mp hamem with h | h
          · exact absurd h hne
          · exact h
        have h1 : pathLe a b = true := (List.pairwise_cons.mp hs1).1 b hb1
        have h2 : pathLe b a = true := (List.pairwise_cons.mp hs2).1 a ha2
        have hpath : a.filePath = b.filePath := by
          simp only [pathLe, decide_eq_true_eq] at h1 h2
          exact le_antisymm h1 h2
        have hmem : a.filePath ∈ t1.map (fun e => e.filePath) := by
          rw [hpath]
          exact List.mem_map_of_mem _ hb1
        exact (List.nodup_cons.mp hnd).1 hmem
      subst hab
      have ht := ih t2 hp.cons_inv (List.pairwise_cons.mp hs1).2
        (List.pairwise_cons.mp hs2).2 (List.nodup_cons.mp hnd).2
      rw [ht]

theorem pathLe_trans (a b c : FileEntry) (hab : pathLe a b = true)
    (hbc : pathLe b c = true) : pathLe a c = true := by
  simp only [pathLe, decide_eq_true_eq] at *
  exact le_trans hab hbc

theorem pathLe_total (a b : FileEntry) : (pathLe a b || pathLe b a) = true := by
  simp only [pathLe, Bool.or_eq_true, decide_eq_true_eq]
  exact le_total _ _

/-- Discovery order is deterministic: whatever order the filesystem walk
yields, the disambiguate-and-sort pipeline produces the same list, provided
file paths are distinct. -/
theorem discoverFiles_det (h8 : String → String) (raw1 raw2 : List FileEntry)
    (hp : raw1.Perm raw2) (hnd : (raw1.map (fun e => e.filePath)).Nodup) :
    discoverFiles h8 raw1 = discoverFiles h8 raw2 := by
  unfold discoverFiles
  have hperm2 : (disambiguate h8 raw1).Perm (disambiguate h8 raw2) :=
    disambiguate_perm h8 hp
  apply sorted_unique_paths
  · exact ((List.mergeSort_perm _ _).trans hperm2).trans (List.mergeSort_perm _ _).symm
  · exact List.sorted_mergeSort pathLe_trans pathLe_total _
  · exact List.sorted_mergeSort pathLe_trans pathLe_total _
  · have h1 := (List.mergeSort_perm (disambiguate h8 raw1) pathLe).map
      (fun e => e.filePath)
    refine h1.nodup_iff.mpr ?_
    rw [disambiguate_paths]
    exact hnd

theorem mdFlush_ids (h12 : String → String) (fileId : String) (st : MdState)
    (h : st.chunks.map (fun c => c.chunk_id) =
      (List.range st.chunkIndex).map (makeChunkId h12 fileId))
    (hf : ∀ c ∈ st.chunks, c.file_id = fileId) :
    ((mdFlush h12 fileId st).chunks.map (fun c => c.chunk_id) =
      (List.range (mdFlush h12 fileId st).chunkIndex).map (makeChunkId h12 fileId)) ∧
    ∀ c ∈ (mdFlush h12 fileId st).chunks, c.file_id = fileId := by
  unfold mdFlush
  cases htr : trimBlankLines st.currentLines with
  | none => exact ⟨h, hf⟩
  | some tr =>
    constructor
    · show (st.chunks ++ [_]).map (fun c : Chunk => c.chunk_id) =
        (List.range (st.chunkIndex + 1)).map (makeChunkId h12 fileId)
      rw [List.map_append, h, List.range_succ, List.map_append]
      rfl
    · intro c hc
      rcases List.mem_append.mp hc with hc | hc
      · exact hf c hc
      · simp only [List.mem_singleton] at hc
        rw [hc]

theorem mdStep_ids (h12 : String → String) (fileId : String) (i : Nat)
    (line : String) (st : MdState)
    (h : st.chunks.map (fun c => c.chunk_id) =
      (List.range st.chunkIndex).map (makeChunkId h12 fileId))
    (hf : ∀ c ∈ st.chunks, c.file_id = fileId) :
    ((mdStep h12 fileId i line st).chunks.map (fun c => c.chunk_id) =
      (List.range (mdStep h12 fileId i line st).chunkIndex).map (makeChunkId h12 fileId)) ∧
    ∀ c ∈ (mdStep h12 fileId i line st).chunks, c.file_id = fileId := by
  unfold mdStep
  split <;> (dsimp only; split)
  · exact mdFlush_ids h12 fileId _ h hf
  · exact ⟨h, hf⟩
  · exact mdFlush_ids h12 fileId _ h hf
  · exact ⟨h, hf⟩

theorem mdGo_ids (h12 : String → String) (fileId : String) :
    ∀ (rest : List String) (i : Nat) (st : MdState),
      st.chunks.map (fun c => c.chunk_id) =
        (List.range st.chunkIndex).map (makeChunkId h12 fileId) →
      (∀ c ∈ st.chunks, c.file_id = fileId) →
      IdShape h12 fileId (mdGo h12 fileId rest i st) := by
  intro rest
  induction rest with
  | nil =>
    intro i st h hf
    unfold mdGo
    by_cases he : st.currentLines.isEmpty = true
    · rw [if_pos he]
      exact ⟨⟨st.chunkIndex, h⟩, hf⟩
    · rw [if_neg (by simp [he])]
      obtain ⟨h2, hf2⟩ := mdFlush_ids h12 fileId st h hf
      exact ⟨⟨(mdFlush h12 fileId st).chunkIndex, h2⟩, hf2⟩
  | cons line rest' ih =>
    intro i st h hf
    unfold mdGo
    obtain ⟨h2, hf2⟩ := mdStep_ids h12 fileId i line st h hf
    exact ih (i + 1) _ h2 hf2

theorem chunkMarkdown_ids (h12 : String → String) (content fileId : String) :
    IdShape h12 fileId (chunkMarkdown h12 content fileId) :=
  mdGo_ids h12 fileId (splitLines content) 0 ⟨[], [], 0, 0, false⟩ rfl (by simp)

theorem ptFlush_ids (h12 : String → String) (fileId : String) (st : PtState)
    (h : st.chunks.map (fun c => c.chunk_id) =
      (List.range st.chunkIndex).map (makeChunkId h12 fileId))
    (hf : ∀ c ∈ st.chunks, c.file_id = fileId) :
    ((ptFlush h12 fileId st).chunks.map (fun c => c.chunk_id) =
      (List.range (ptFlush h12 fileId st).chunkIndex).map (makeChunkId h12 fileId)) ∧
    ∀ c ∈ (ptFlush h12 fileId st).chunks, c.file_id = fileId := by
  unfold ptFlush
  cases hcl : st.currentLines with
  | nil => exact ⟨h, hf⟩
  | cons a t =>
    constructor
    · show (st.chunks ++ [_]).map (fun c : Chunk => c.chunk_id) =
        (List.range (st.chunkIndex + 1)).map (makeChunkId h12 fileId)
      rw [List.map_append, h, List.range_succ, List.map_append]
      rfl
    · intro c hc
      rcases List.mem_append.mp hc with hc | hc
      · exact hf c hc
      · simp only [List.mem_singleton] at hc
        rw [hc]

theorem ptStep_ids (h12 : String → String) (fileId : String) (i : Nat)
    (line : String) (st : PtState)
    (h : st.chunks.map (fun c => c.chunk_id) =
      (List.range st.chunkIndex).map (makeChunkId h12 fileId))
    (hf : ∀ c ∈ st.chunks, c.file_id = fileId) :
    ((ptStep h12 fileId i line st).chunks.map (fun c => c.chunk_id) =
      (List.range (ptStep h12 fileId i line st).chunkIndex).map (makeChunkId h12 fileId)) ∧
    ∀ c ∈ (ptStep h12 fileId i line st).chunks, c.file_id = fileId := by
  unfold ptStep
  split
  · split
    · exact ⟨h, hf⟩
    · exact ⟨h, hf⟩
  · split
    · exact ptFlush_ids h12 fileId st h hf
    · exact ⟨h, hf⟩

theorem ptGo_ids (h12 : String → String) (fileId : String) :
    ∀ (rest : List String) (i : Nat) (st : PtState),
      st.chunks.map (fun c => c.chunk_id) =
        (List.range st.chunkIndex).map (makeChunkId h12 fileId) →
      (∀ c ∈ st.chunks, c.file_id = fileId) →
      IdShape h12 fileId (ptGo h12 fileId rest i st) := by
  intro rest
  induction rest with
  | nil =>
    intro i st h hf
    unfold ptGo
    obtain ⟨h2, hf2⟩ := ptFlush_ids h12 fileId st h hf
    exact ⟨⟨(ptFlush h12 fileId st).chunkIndex, h2⟩, hf2⟩
  | cons line rest' ih =>
    intro i st h hf
    unfold ptGo
    obtain ⟨h2, hf2⟩ := ptStep_ids h12 fileId i line st h hf
    exact ih (i + 1) _ h2 hf2

theorem chunkPlainText_ids (h12 : String → String) (content fileId : String) :
    IdShape h12 fileId (chunkPlainText h12 content fileId) :=
  ptGo_ids h12 fileId (splitLines content) 0 ⟨[], [], none, 0⟩ rfl (by simp)

theorem chunkFile_ids (h12 : String → String) (filePath fileId content : String) :
    IdShape h12 fileId (chunkFile h12 filePath fileId content) := by
  unfold chunkFile
  by_cases h1 : (strTrim content == "") = true
  · rw [if_pos h1]
    exact ⟨⟨0, rfl⟩, by simp⟩
  · rw [if_neg h1]
    by_cases h2 : strEndsWith (strToLower filePath) ".md" = true
    · rw [if_pos h2]
      exact chunkMarkdown_ids h12 content fileId
    · rw [if_neg h2]
      exact chunkPlainText_ids h12 content fileId

/-- Ids in an `IdShape` list are pairwise distinct when the digest is
injective. -/
theorem idShape_nodup (h12 : String → String) (hinj : Function.Injective h12)
    (fileId : String) (cs : List Chunk) (h : IdShape h12 fileId cs) :
    (cs.map (fun c => c.chunk_id)).Nodup := by
  obtain ⟨⟨k, hk⟩, _⟩ := h
  rw [hk]
  refine List.Nodup.map ?_ (List.nodup_range k)
  intro i1 i2 hi
  exact (makeChunkId_inj h12 hinj fileId fileId i1 i2 hi).2

/-- Every ingested chunk's id is the digest of its own file id and some
intra-file index. -/
theorem ingest_chunk_shape (h12 h8 : String → String) (contentOf : String → String)
    (raw : List FileEntry) :
    ∀ c ∈ ingestChunks h12 h8 contentOf raw,
      ∃ i, c.chunk_id = makeChunkId h12 c.file_id i := by
  intro c hc
  unfold ingestChunks at hc
  rcases List.mem_flatMap.mp hc with ⟨e, _, hce⟩
  obtain ⟨⟨k, hk⟩, hfid⟩ := chunkFile_ids h12 e.filePath e.fileId (contentOf e.filePath)
  have hidmem : c.chunk_id ∈ (chunkFile h12 e.filePath e.fileId (contentOf e.filePath)).map
      (fun c => c.chunk_id) := List.mem_map_of_mem _ hce
  rw [hk] at hidmem
  rcases List.mem_map.mp hidmem with ⟨i, _, hi⟩
  rw [hfid c hce]
  exact ⟨i, hi.symm⟩

/-- C4: re-ingesting unchanged content yields the identical ordered chunk
sequence (hence identical `chunk_id` sequence), independently of the order
the filesystem walk enumerated the files in; and, the 12-hex digest being
injective, chunks of two distinct files never share a `chunk_id`, nor do two
distinct intra-file chunk indices of the same file (the per-file id lists
are duplicate-free). -/
theorem ingest_determinism_and_uniqueness (h12 h8 : String → String)
    (contentOf : String → String) (raw1 raw2 : List FileEntry)
    (hp : raw1.Perm raw2)
    (hnd : (raw1.map (fun e => e.filePath)).Nodup)
    (hinj : Function.Injective h12) :
    ingestChunks h12 h8 contentOf raw1 = ingestChunks h12 h8 contentOf raw2 ∧
    (∀ c1 ∈ ingestChunks h12 h8 contentOf raw1,
     ∀ c2 ∈ ingestChunks h12 h8 contentOf raw1,
      c1.file_id ≠ c2.file_id → c1.chunk_id ≠ c2.chunk_id) ∧
    (∀ content fileId,
      (((chunkMarkdown h12 content fileId).map (fun c => c.chunk_id)).Nodup ∧
       ((chunkPlainText h12 content fileId).map (fun c => c.chunk_id)).Nodup)) := by
  refine ⟨?_, ?_, ?_⟩
  · unfold ingestChunks
    rw [discoverFiles_det h8 raw1 raw2 hp hnd]
  · intro c1 hc1 c2 hc2 hne heq
    obtain ⟨i1, h1⟩ := ingest_chunk_shape h12 h8 contentOf raw1 c1 hc1
    obtain ⟨i2, h2⟩ := ingest_chunk_shape h12 h8 contentOf raw1 c2 hc2
    rw [h1, h2] at heq
    exact hne (makeChunkId_inj h12 hinj _ _ _ _ heq).1
  · intro content fileId
    exact ⟨idShape_nodup h12 hinj fileId _ (chunkMarkdown_ids h12 content fileId),
      idShape_nodup h12 hinj fileId _ (chunkPlainText_ids h12 content fileId)⟩

/-- Witness for C4: the identity digest (injective) on a one-file walk. -/
theorem ingest_determinism_and_uniqueness_witness :
    ((chunkPlainText (fun s => s) "alpha\n\nbeta" "f.txt").map
      (fun c => c.chunk_id)).Nodup := by
  have h := (ingest_determinism_and_uniqueness (fun s => s) (fun s => s)
    (fun _ => "alpha\n\nbeta") [{ filePath := "/a/f.txt", fileId := "f.txt" }]
    [{ filePath := "/a/f.txt", fileId := "f.txt" }]
    (List.Perm.refl _) (by decide) (fun a b hab => hab)).2.2 "alpha\n\nbeta" "f.txt"
  exact h.2

end Workpacket
